import Mathlib

/-!
# wol_lib: MAC address codec, neighbour-table parsing, model extraction, magic packet

A shallow embedding of `in_ether.c`, `send_wol.c`, `arp.c` and `dig.c`.

Conventions of the embedding

* A C string is the list of its characters before the terminating NUL
  (`CStr`).  Reading one position past the content yields NUL.
* A result is an `Option`: `none` stands for a run without a defined result,
  distinct from every return value of the C function.  It arises when the
  C code has undefined behaviour that the embedding tracks: `strcpy` of a
  token that does not fit the local array it is copied into
  (`macAddrTemp[32]`, `modelID[64]`), and `pclose` on the NULL stream left by
  a failed `popen`.  A loop of the source is a recursive function over an
  explicit fuel, and running out of fuel would be `none` as well; each entry
  point passes enough fuel (see `in_ether_spec`, `formatMAC_eq`,
  `formatModelIdentifier_total`, `macForIP_lines_cons`,
  `deviceInfoForHost_lines_cons`), and the results below are stated as
  `= some _`.
* The capacities of the buffers of the caller (`macAddr`, `formattedMAC`,
  `devInfo`, `cmd`), of the command buffers (`command`, `address`), whose
  overflow depends on the length of the arguments only, and of `buff[512]`,
  which `fgets` respects, are not part of the embedding; `tempbuf[3]` always
  holds its two characters.
-/

namespace WolLib

/-- Content of a NUL-terminated character array, terminator excluded. -/
abbrev CStr := List Char

/-- The string terminator. -/
def NUL : Char := Char.ofNat 0

/-- The character `*(s + p)` of a C string, for `p` up to its terminator. -/
def charAt (s : CStr) (p : Nat) : Char := s.getD p NUL

/-! ## libc -/

/-- The libc test `isdigit`, in the C locale. -/
def isdigit (c : Char) : Bool := decide ('0' ≤ c) && decide (c ≤ '9')

/-! ## in_ether.c -/

/-- First character of an octet (in_ether.c lines 67-83): its hex value, or
`none` for the `return (-1)` branch. -/
def in_ether_first (c : Char) : Option Nat :=
  if isdigit c then some (c.toNat - '0'.toNat)
  else if 'a' ≤ c ∧ c ≤ 'f' then some (c.toNat - 'a'.toNat + 10)
  else if 'A' ≤ c ∧ c ≤ 'F' then some (c.toNat - 'A'.toNat + 10)
  else none

/-- Second character of an octet (in_ether.c lines 88-107), applied to the
already shifted `val`: the updated `val`, or `none` for `return (-1)`. -/
def in_ether_second (val : Nat) (c : Char) : Option Nat :=
  if isdigit c then some (val ||| (c.toNat - '0'.toNat))
  else if 'a' ≤ c ∧ c ≤ 'f' then some (val ||| (c.toNat - 'a'.toNat + 10))
  else if 'A' ≤ c ∧ c ≤ 'F' then some (val ||| (c.toNat - 'A'.toNat + 10))
  else if c = ':' ∨ c = NUL then some (val >>> 4)
  else none

/-- The `while` loop of `in_ether` followed by the final length check.
`macStr` is the offset `macStr - macStrOrig` of the moving pointer, `hwAddr`
the bytes stored through `ptr` so far.  The result is the return value
together with the bytes written to `hwAddr`. -/
def in_ether_loop (macStrOrig : CStr) : Nat → Nat → Nat → List Nat → Option (Int × List Nat)
  | fuel, macStr, i, hwAddr =>
    if charAt macStrOrig macStr ≠ NUL ∧ i < 6 then
      match fuel with
      | 0 => none
      | fuel + 1 =>
        let c := charAt macStrOrig macStr
        let macStr := macStr + 1
        match in_ether_first c with
        | none => some (-1, hwAddr)
        | some val =>
          let val := val <<< 4
          let c := charAt macStrOrig macStr
          match in_ether_second val c with
          | none => some (-1, hwAddr)
          | some val =>
            let macStr := if c ≠ NUL then macStr + 1 else macStr
            let hwAddr := hwAddr ++ [val &&& 0o377]
            let i := i + 1
            let macStr :=
              if charAt macStrOrig macStr = ':' then
                if i ≠ 6 then macStr + 1 else macStr
              else macStr
            in_ether_loop macStrOrig fuel macStr i hwAddr
    else if macStr ≠ 17 then some (-1, hwAddr)
    else some (0, hwAddr)

/-- The function `int in_ether (char *macStr, unsigned char *hwAddr)`: the return value
and the bytes written to `hwAddr[0..]`. -/
def in_ether (macStr : CStr) : Option (Int × List Nat) :=
  in_ether_loop macStr 6 0 0 []

/-! ## send_wol.c -/

/-- A call made on the socket interface, with the arguments that vary. -/
inductive SockCall where
  /-- The call `socket (AF_INET, SOCK_DGRAM, IPPROTO_UDP)` -/
  | socket
  /-- The call `setsockopt (fd, SOL_SOCKET, SO_BROADCAST, &optval, sizeof optval)` -/
  | setsockopt (fd : Int)
  /-- The call `sendto (fd, buf, len, 0, &sap, sizeof sap)`: the `len` bytes sent,
  `sap.sin_addr.s_addr` and `sap.sin_port` (host byte order) -/
  | sendto (fd : Int) (payload : List Nat) (addr : Nat) (port : Nat)
  /-- The call `close (fd)` -/
  | close (fd : Int)
  deriving DecidableEq, Repr

/-- What the operating system answers to the three calls that can fail. -/
structure SockEnv where
  /-- return value of `socket` -/
  socket : Int
  /-- return value of `setsockopt` -/
  setsockopt : Int
  /-- return value of `sendto` -/
  sendto : Int

/-- The message built in `packetBuf` (send_wol.c lines 92-100): each
`*ptr++ = x` appends `x`.  `ethaddr[i]` is read from the bytes `in_ether`
stored. -/
def send_wol_packetBuf (ethaddr : List Nat) : List Nat :=
  let packetBuf := (List.range 6).foldl (fun buf _ => buf ++ [0xff]) []
  (List.range 16).foldl
    (fun buf _ => (List.range 6).foldl (fun buf i => buf ++ [ethaddr.getD i 0]) buf) packetBuf

/-- The function `int send_wol (char *macAddr)`: the return value and the socket calls
made, in order. -/
def send_wol (env : SockEnv) (macAddr : CStr) : Option (Int × List SockCall) :=
  match in_ether macAddr with
  | none => none
  | some (r, ethaddr) =>
    if r < 0 then some (-1, [])
    else
      let packet := env.socket
      if packet < 0 then some (-1, [SockCall.socket])
      else if env.setsockopt < 0 then
        some (-1, [SockCall.socket, SockCall.setsockopt packet, SockCall.close packet])
      else
        let packetBuf := send_wol_packetBuf ethaddr
        let sent := SockCall.sendto packet (packetBuf.take 102) 0xffffffff 60000
        if env.sendto < 0 then
          some (-1, [SockCall.socket, SockCall.setsockopt packet, sent, SockCall.close packet])
        else
          some (0, [SockCall.socket, SockCall.setsockopt packet, sent, SockCall.close packet])

/-! ## libc strings -/

/-- The libc function `strlen`. -/
def strlen (s : CStr) : Nat := s.length

/-- The call `strcpy (dst, src)`: the new content of `dst`. -/
def strcpy (_dst src : CStr) : CStr := src

/-- The call `strcpy (dst, src)` into a local array `dst` of `cap` characters:
the new content of `dst`, defined when the string and its terminator fit
(`strlen (src) + 1 <= cap`); a longer string is stored past the end of the
array, which is undefined (`none`). -/
def strcpy_into (cap : Nat) (src : CStr) : Option CStr :=
  if strlen src < cap then some src else none

/-- The call `strcat (dst, src)`: the new content of `dst`. -/
def strcat (dst src : CStr) : CStr := dst ++ src

/-- The test `strchr (s, c) != 0`. -/
def strchr (s : CStr) (c : Char) : Bool := s.contains c

/-- The call `strcmp (a, b)`: zero exactly when the strings are equal (the sign of a
non-zero result is not modelled). -/
def strcmp (a b : CStr) : Int := if a = b then 0 else 1

/-- The call `strncmp (a, b, n)`: zero exactly when the first `n` characters
of the two strings agree, a string that ends earlier agreeing only with one
that ends at the same place (the sign of a non-zero result is not modelled). -/
def strncmp (a b : CStr) (n : Nat) : Int := if a.take n = b.take n then 0 else 1

/-- The character `c` is one of the delimiters `delims` of a `strtok` call. -/
def isDelim (delims : CStr) (c : Char) : Bool := delims.contains c

/-- One call of `strtok` scanning from `s` (the string on a first call, the
saved position on a call with NULL).  `none` is the NULL result; otherwise
the token and the position saved for the next call: the token ends at the
first delimiter after it, which is overwritten and stepped over, or at the
end of the string. -/
def strtok (s delims : CStr) : Option (CStr × CStr) :=
  match s.dropWhile (isDelim delims) with
  | [] => none
  | c :: cs =>
    some ((c :: cs).takeWhile (fun c => !isDelim delims c),
      ((c :: cs).dropWhile (fun c => !isDelim delims c)).tail)

/-! ## arp.c -/

/-- The `while (token != NULL)` loop of `formatMAC`.  The state of `strtok`
is the pair of the current token and the saved position; `none` is a NULL
token. -/
def formatMAC_loop (delims : CStr) : Nat → Option (CStr × CStr) → CStr → Option CStr
  | _, none, formattedMAC => some formattedMAC
  | 0, some _, _ => none
  | fuel + 1, some (token, save), formattedMAC =>
    let formattedMAC :=
      if strlen token = 1 then
        let tempbuf := strcpy [] ['0']
        let tempbuf := strcat tempbuf token
        strcat formattedMAC tempbuf
      else
        strcat formattedMAC token
    let next := strtok save delims
    let formattedMAC := if next.isSome then strcat formattedMAC delims else formattedMAC
    formatMAC_loop delims fuel next formattedMAC

/-- The function `int formatMAC(char *unformattedMAC, char *formattedMAC)`: the return
value and the final content of `formattedMAC`, given its content on entry. -/
def formatMAC (unformattedMAC formattedMAC : CStr) : Option (Int × CStr) :=
  let delims := [':']
  match formatMAC_loop delims (strlen unformattedMAC) (strtok unformattedMAC delims)
      formattedMAC with
  | none => none
  | some formattedMAC => some (0, formattedMAC)

/-- The token loop of `macForIP` over one line (arp.c lines 147-158): the
final `macAddrTemp` and `found`.  The token found is copied into
`char macAddrTemp[32]`. -/
def macForIP_scan : Nat → Option (CStr × CStr) → Option (CStr × Bool)
  | _, none => some ([], false)
  | 0, some _ => none
  | fuel + 1, some (pch, save) =>
    if strchr pch ':' then
      match strcpy_into 32 pch with
      | none => none
      | some macAddrTemp => some (macAddrTemp, true)
    else macForIP_scan fuel (strtok save [' '])

/-- The `while (fgets(...) != NULL)` loop of `macForIP` over the chunks that
`fgets` returns, with `macAddr` and `returnValue` as they stand. -/
def macForIP_lines : List CStr → CStr → Int → Option (Int × CStr)
  | [], macAddr, returnValue => some (returnValue, macAddr)
  | buff :: rest, macAddr, returnValue =>
    match macForIP_scan (strlen buff) (strtok buff [' ']) with
    | none => none
    | some (macAddrTemp, found) =>
      if !found then
        macForIP_lines rest (strcpy macAddr "no MAC found".toList) returnValue
      else
        formatMAC macAddrTemp macAddr

/-- The function `int macForIP(char *ipAddr, char *macAddr)`: the return value and the
final content of `macAddr`, given its content on entry.  `popen` stands for
the command run: NULL (`none`) or the chunks that successive `fgets` calls
read from the pipe.  After a failed `popen` the code sets `returnValue = 1`
and goes on to `pclose (in)` with `in == NULL`, which is undefined. -/
def macForIP (popen : CStr → Option (List CStr)) (ipAddr macAddr : CStr) :
    Option (Int × CStr) :=
  let command := strcat "arp ".toList ipAddr
  match popen command with
  | none => none
  | some out => macForIP_lines out macAddr 0

/-- The `while (fgets(...) != NULL)` loop of `pingIP` over the chunks that
`fgets` returns, with `returnValue` as it stands. -/
def pingIP_lines (errorCondition : CStr) : List CStr → Int → Int
  | [], returnValue => returnValue
  | buff :: rest, returnValue =>
    if strncmp errorCondition buff (strlen errorCondition) = 0 then 1
    else pingIP_lines errorCondition rest returnValue

/-- The function `int pingIP(char *ipAddr)`: the return value.  `popen` stands
for the command run, as in `macForIP`; after a failed `popen` the code sets
`returnValue = 1` and goes on to `pclose (in)` with `in == NULL`, which is
undefined. -/
def pingIP (popen : CStr → Option (List CStr)) (ipAddr : CStr) : Option Int :=
  let command := strcat "ping -c 1 ".toList ipAddr
  let errorCondition := "1 packets transmitted, 0 packets received".toList
  match popen command with
  | none => none
  | some out => some (pingIP_lines errorCondition out 0)

/-! ## dig.c -/

/-- The macro `mDNS_BCAST_ADDRESS`. -/
def mDNS_BCAST_ADDRESS : CStr := "224.0.0.251".toList

/-- The macro `mDNS_PORT`. -/
def mDNS_PORT : CStr := "5353".toList

/-- The macro `mDNS_QUERY`. -/
def mDNS_QUERY : CStr := "TXT".toList

/-- The macro `DEVICE_INFO_SERVICE`. -/
def DEVICE_INFO_SERVICE : CStr := "_device-info._tcp".toList

/-- The macro `LOCAL_DOMAIN`. -/
def LOCAL_DOMAIN : CStr := "local".toList

/-- The macro `DOT_DELIMITER`. -/
def DOT_DELIMITER : CStr := ".".toList

/-- The macro `SPACE`. -/
def SPACE : CStr := " ".toList

/-- The function `int buildDigCmd(char *server, char *hostName, char *port,
char *serviceType, char *domain, char *query, char *cmd)`: the return value
and the final content of `cmd`, given its content on entry.  A NULL `server`
is `none`. -/
def buildDigCmd (server : Option CStr) (hostName port serviceType domain query cmd : CStr) :
    Int × CStr :=
  let cmd := strcpy cmd "dig @".toList
  let cmd :=
    match server with
    | none => strcat cmd mDNS_BCAST_ADDRESS
    | some server =>
      if strcmp server [] = 0 then strcat cmd mDNS_BCAST_ADDRESS
      else strcat cmd server
  let cmd := strcat cmd SPACE
  let cmd := strcat cmd "-p".toList
  let cmd := strcat cmd port
  let cmd := strcat cmd SPACE
  let cmd := strcat cmd hostName
  let cmd := strcat cmd DOT_DELIMITER
  let cmd := strcat cmd serviceType
  let cmd := strcat cmd DOT_DELIMITER
  let cmd := strcat cmd domain
  let cmd := strcat cmd SPACE
  let cmd := strcat cmd query
  (0, cmd)

/-- The `while (token != NULL)` loop of `formatModelIdentifier`, with
`modelLabel` as it stands; `returnValue` is still 1 while the loop runs. -/
def formatModelIdentifier_loop (delims : CStr) :
    Nat → Option (CStr × CStr) → Int → CStr → Option (Int × CStr)
  | _, none, _, formattedModelID => some (1, formattedModelID)
  | 0, some _, _, _ => none
  | fuel + 1, some (token, save), modelLabel, formattedModelID =>
    if strcmp token "model".toList ≠ 0 then
      if modelLabel = 1 then
        some (0, strcat formattedModelID token)
      else
        formatModelIdentifier_loop delims fuel (strtok save delims) modelLabel formattedModelID
    else
      formatModelIdentifier_loop delims fuel (strtok save delims) 1 formattedModelID

/-- The function
`int formatModelIdentifier(char *unformattedModelID, char *formattedModelID)`:
the return value and the final content of `formattedModelID`. -/
def formatModelIdentifier (unformattedModelID formattedModelID : CStr) : Option (Int × CStr) :=
  let delims := [Char.ofNat 34, '=']
  formatModelIdentifier_loop delims (strlen unformattedModelID)
    (strtok unformattedModelID delims) 0 formattedModelID

/-- The token loop of `deviceInfoForHost` over one line (dig.c lines 209-222):
the final `modelID` and `found`.  The token found is copied into
`char modelID[64]`. -/
def deviceInfoForHost_scan : Nat → Option (CStr × CStr) → Option (CStr × Bool)
  | _, none => some ([], false)
  | 0, some _ => none
  | fuel + 1, some (token, save) =>
    if strchr token '=' then
      match strcpy_into 64 token with
      | none => none
      | some modelID => some (modelID, true)
    else deviceInfoForHost_scan fuel (strtok save [' '])

/-- The `while (fgets(...) != NULL)` loop of `deviceInfoForHost` over the
chunks that `fgets` returns, with `devInfo` and `returnValue` as they stand. -/
def deviceInfoForHost_lines : List CStr → CStr → Int → Option (Int × CStr)
  | [], devInfo, returnValue => some (returnValue, devInfo)
  | buff :: rest, devInfo, _ =>
    match deviceInfoForHost_scan (strlen buff) (strtok buff [' ']) with
    | none => none
    | some (modelID, found) =>
      if !found then
        deviceInfoForHost_lines rest (strcpy devInfo []) 1
      else
        formatModelIdentifier modelID devInfo

/-- The command that `deviceInfoForHost` builds (dig.c lines 173-184):
`address` from `hostIP`, then `buildDigCmd` into the empty `command`. -/
def deviceInfoForHost_command (host : CStr) (hostIP : Option CStr) : CStr :=
  let address :=
    match hostIP with
    | none => strcpy [] []
    | some hostIP => if strcmp hostIP [] = 0 then strcpy [] [] else strcpy [] hostIP
  (buildDigCmd (some address) host mDNS_PORT DEVICE_INFO_SERVICE LOCAL_DOMAIN mDNS_QUERY []).2

/-- The function `int deviceInfoForHost(char *host, char *hostIP, char *devInfo)`:
the return value and the final content of `devInfo`, given its content on
entry.  A NULL `hostIP` is `none`; `popen` stands for the command run, as in
`macForIP`, and a failed `popen` is followed by `pclose (in)` with
`in == NULL`, which is undefined. -/
def deviceInfoForHost (popen : CStr → Option (List CStr)) (host : CStr)
    (hostIP : Option CStr) (devInfo : CStr) : Option (Int × CStr) :=
  let command := deviceInfoForHost_command host hostIP
  match popen command with
  | none => none
  | some out => deviceInfoForHost_lines out devInfo 0

/-! ## Reading of the claims: hex digits and their values -/

/-- A hex digit: one of 0-9, a-f, A-F. -/
def isHexDigit (c : Char) : Bool :=
  (decide ('0' ≤ c) && decide (c ≤ '9')) || (decide ('a' ≤ c) && decide (c ≤ 'f')) ||
    (decide ('A' ≤ c) && decide (c ≤ 'F'))

/-- The numeric value of a hex digit (0 for any other character). -/
def hexVal (c : Char) : Nat :=
  if '0' ≤ c ∧ c ≤ '9' then c.toNat - 48
  else if 'a' ≤ c ∧ c ≤ 'f' then c.toNat - 97 + 10
  else if 'A' ≤ c ∧ c ≤ 'F' then c.toNat - 65 + 10
  else 0

/-- Octet `k` of a string read in groups of three characters is accepted by
`in_ether` at full width: a hex digit, then a hex digit or a colon, then
(except after the sixth octet) a colon. -/
def octetOk (s : CStr) (k : Nat) : Bool :=
  isHexDigit (charAt s (3 * k)) &&
    (isHexDigit (charAt s (3 * k + 1)) || charAt s (3 * k + 1) == ':') &&
    (k == 5 || charAt s (3 * k + 2) == ':')

/-- The byte decoded from octet `k`: two digits when the second character is
a hex digit, the single digit otherwise. -/
def octetVal (s : CStr) (k : Nat) : Nat :=
  if isHexDigit (charAt s (3 * k + 1)) then
    16 * hexVal (charAt s (3 * k)) + hexVal (charAt s (3 * k + 1))
  else hexVal (charAt s (3 * k))

/-- Octets `i, i+1, ..., i+n-1` are all accepted. -/
def octetsOk (s : CStr) : Nat → Nat → Bool
  | 0, _ => true
  | n + 1, i => octetOk s i && octetsOk s n (i + 1)

/-- The bytes of octets `i, i+1, ..., i+n-1`. -/
def octetVals (s : CStr) : Nat → Nat → List Nat
  | 0, _ => []
  | n + 1, i => octetVal s i :: octetVals s n (i + 1)

/-- The canonical MAC form: exactly 17 characters `XX:XX:XX:XX:XX:XX`, every
`X` a hex digit. -/
def isCanonicalMAC (s : CStr) : Bool :=
  s.length == 17 &&
    (List.range 17).all fun k => if k % 3 = 2 then charAt s k == ':' else isHexDigit (charAt s k)


/-- The non-empty fields of `s` between characters of `delims`: `s` split at
every delimiter, empty fields dropped. -/
def fieldsOf (delims : CStr) (s : CStr) : List CStr :=
  (s.splitOnP (isDelim delims)).filter fun f => !f.isEmpty

/-- Width fix of one octet: a one-character octet gets a leading `0`, any
other is kept as it is. -/
def padOctet (o : CStr) : CStr := if o.length = 1 then '0' :: o else o

/-- The normalized form of the spec: split on `:`, drop empty octets, fix the
width of each octet, join with `:` in the original order. -/
def normalizeSpec (raw : CStr) : CStr :=
  [':'].intercalate (((raw.splitOn ':').filter fun o => !o.isEmpty).map padOctet)

/-- The first space-delimited token of a line that contains a colon, if the
line has one. -/
def macToken (line : CStr) : Option CStr :=
  (fieldsOf [' '] line).find? fun t => strchr t ':'

/-- The first space-delimited token of a line that contains an equals sign,
if the line has one. -/
def eqToken (line : CStr) : Option CStr :=
  (fieldsOf [' '] line).find? fun t => strchr t '='

/-- The value located in a token sequence: the first token different from
`model` after the first token `model`, if there is one. -/
def modelValue (toks : List CStr) : Option CStr :=
  ((toks.dropWhile fun t => t != "model".toList).dropWhile fun t => t == "model".toList).head?

/-- A letter a-f in upper case; any other character unchanged. -/
def upperHex (c : Char) : Char :=
  if 'a' ≤ c ∧ c ≤ 'f' then Char.ofNat (c.toNat - 32) else c

/-- A letter A-F in lower case; any other character unchanged. -/
def lowerHex (c : Char) : Char :=
  if 'A' ≤ c ∧ c ≤ 'F' then Char.ofNat (c.toNat + 32) else c

/-- The numeric value of an octet written in hex digits. -/
def octetHex (o : CStr) : Nat := o.foldl (fun acc c => 16 * acc + hexVal c) 0

/-- A group of `in_ether`: a hex digit followed by a hex digit (`XX`) or by a
colon (`X:`). -/
def isGroup (a b : Char) : Bool := isHexDigit a && (isHexDigit b || b == ':')

/-- The byte a group decodes to: both digits of `XX`, the single digit of
`X:`. -/
def groupVal (a b : Char) : Nat :=
  if isHexDigit b then 16 * hexVal a + hexVal b else hexVal a
/-! # Lemmas

## in_ether -/

theorem char_le_iff (a b : Char) : a ≤ b ↔ a.toNat ≤ b.toNat := by
  rw [Char.le_def]
  exact Iff.rfl

theorem hexVal_lt (c : Char) : hexVal c < 16 := by
  unfold hexVal
  split
  · rename_i h
    have h2 := (char_le_iff _ _).1 h.2
    have : ('9' : Char).toNat = 57 := rfl
    omega
  · split
    · rename_i h
      have h2 := (char_le_iff _ _).1 h.2
      have : ('f' : Char).toNat = 102 := rfl
      omega
    · split
      · rename_i h
        have h2 := (char_le_iff _ _).1 h.2
        have : ('F' : Char).toNat = 70 := rfl
        omega
      · omega

theorem in_ether_first_eq (c : Char) :
    in_ether_first c = if isHexDigit c then some (hexVal c) else none := by
  unfold in_ether_first isHexDigit hexVal isdigit
  by_cases h1 : '0' ≤ c <;> by_cases h2 : c ≤ '9' <;> by_cases h3 : 'a' ≤ c <;>
    by_cases h4 : c ≤ 'f' <;> by_cases h5 : 'A' ≤ c <;> by_cases h6 : c ≤ 'F' <;>
    simp [h1, h2, h3, h4, h5, h6]

theorem shl_or (v d : Nat) (hv : v < 16) (hd : d < 16) : (v <<< 4) ||| d = 16 * v + d := by
  interval_cases v <;> interval_cases d <;> rfl

theorem and_byte (x : Nat) (hx : x < 256) : x &&& 0o377 = x := by
  have : (0o377 : Nat) = 2 ^ 8 - 1 := by decide
  rw [this, Nat.and_pow_two_sub_one_eq_mod]
  exact Nat.mod_eq_of_lt hx


theorem in_ether_second_eq (v : Nat) (c : Char) (hv : v < 16) :
    in_ether_second (v <<< 4) c =
      if isHexDigit c then some (16 * v + hexVal c)
      else if c = ':' ∨ c = NUL then some v else none := by
  have hc : ∀ d, d < 16 → (v <<< 4) ||| d = 16 * v + d := fun d hd => shl_or v d hv hd
  have hl := hexVal_lt c
  unfold in_ether_second isHexDigit isdigit
  unfold hexVal at hl ⊢
  by_cases h1 : '0' ≤ c <;> by_cases h2 : c ≤ '9' <;> by_cases h3 : 'a' ≤ c <;>
    by_cases h4 : c ≤ 'f' <;> by_cases h5 : 'A' ≤ c <;> by_cases h6 : c ≤ 'F' <;>
    simp [h1, h2, h3, h4, h5, h6] at hl ⊢ <;> exact hc _ hl

theorem isHexDigit_ne_NUL (c : Char) (h : isHexDigit c = true) : c ≠ NUL := by
  rintro rfl
  revert h
  decide

theorem isHexDigit_ne_colon (c : Char) (h : isHexDigit c = true) : c ≠ ':' := by
  rintro rfl
  revert h
  decide

/-- One iteration of the loop of `in_ether`, by the classes of the two
characters of the octet. -/
theorem in_ether_loop_step (s : CStr) (fuel pos i : Nat) (hw : List Nat)
    (hc : charAt s pos ≠ NUL) (hi : i < 6) :
    in_ether_loop s (fuel + 1) pos i hw =
      if isHexDigit (charAt s pos) then
        if isHexDigit (charAt s (pos + 1)) then
          in_ether_loop s fuel
            (if charAt s (pos + 2) = ':' ∧ i + 1 ≠ 6 then pos + 3 else pos + 2) (i + 1)
            (hw ++ [16 * hexVal (charAt s pos) + hexVal (charAt s (pos + 1))])
        else if charAt s (pos + 1) = ':' then
          in_ether_loop s fuel
            (if charAt s (pos + 2) = ':' ∧ i + 1 ≠ 6 then pos + 3 else pos + 2) (i + 1)
            (hw ++ [hexVal (charAt s pos)])
        else if charAt s (pos + 1) = NUL then
          in_ether_loop s fuel (pos + 1) (i + 1) (hw ++ [hexVal (charAt s pos)])
        else some (-1, hw)
      else some (-1, hw) := by
  rw [in_ether_loop]
  simp only [hc, hi, ne_eq, not_false_eq_true, and_self, if_true, in_ether_first_eq]
  have e2 : pos + 1 + 1 = pos + 2 := rfl
  have e3 : pos + 1 + 1 + 1 = pos + 3 := rfl
  have hne : ¬ (NUL = ':') := by decide
  have hne2 : ¬ (':' = NUL) := by decide
  have hcx : isHexDigit ':' = false := by decide
  by_cases h1 : isHexDigit (charAt s pos) = true
  · have hv := hexVal_lt (charAt s pos)
    have hb : hexVal (charAt s pos) < 256 := by omega
    simp only [h1, if_true, in_ether_second_eq _ _ hv]
    generalize hexVal (charAt s pos) = v1 at *
    by_cases h2 : isHexDigit (charAt s (pos + 1)) = true
    · have hv2 := hexVal_lt (charAt s (pos + 1))
      have hn := isHexDigit_ne_NUL _ h2
      have hb2 : 16 * v1 + hexVal (charAt s (pos + 1)) < 256 := by omega
      simp only [h2, if_true, hn, not_false_eq_true, and_byte _ hb2, e2, e3]
      by_cases h3 : charAt s (pos + 2) = ':' <;> by_cases h6 : i + 1 = 6 <;> simp [h3, h6]
    · by_cases hcol : charAt s (pos + 1) = ':'
      · simp only [h2, hcol, true_or, if_true, hne2, not_false_eq_true, and_byte _ hb, e2, e3,
          hcx, Bool.false_eq_true, if_false]
        by_cases h3 : charAt s (pos + 2) = ':' <;> by_cases h6 : i + 1 = 6 <;> simp [h3, h6]
      · by_cases hnul : charAt s (pos + 1) = NUL
        · have hnx : isHexDigit NUL = false := by decide
          simp only [hnul, hnx, and_byte _ hb, hne, not_true_eq_false, or_true, if_true,
            if_false, Bool.false_eq_true]
        · simp only [h2, hcol, hnul, or_self, if_false]
          simp
  · simp only [h1]
    simp


/-- The loop of `in_ether` once its condition fails: the final length check. -/
theorem in_ether_loop_exit (s : CStr) (fuel pos i : Nat) (hw : List Nat)
    (h : ¬ (charAt s pos ≠ NUL ∧ i < 6)) :
    in_ether_loop s fuel pos i hw = if pos ≠ 17 then some (-1, hw) else some (0, hw) := by
  cases fuel <;> (rw [in_ether_loop]; simp only [h, if_false])

/-- Once the scan has fallen behind the full-width layout it can no longer
reach offset 17: the call fails. -/
theorem in_ether_loop_behind (s : CStr) :
    ∀ (fuel i pos : Nat) (hw : List Nat), i + fuel = 6 →
      pos < (if i = 6 then 17 else 3 * i) →
      ∃ hw', in_ether_loop s fuel pos i hw = some (-1, hw') := by
  intro fuel
  induction fuel with
  | zero =>
    intro i pos hw hi hp
    have h6 : i = 6 := by omega
    subst h6
    rw [in_ether_loop_exit s 0 pos 6 hw (by simp)]
    have : pos ≠ 17 := by simp at hp; omega
    exact ⟨hw, by simp [this]⟩
  | succ fuel ih =>
    intro i pos hw hi hp
    have hi6 : i < 6 := by omega
    have hne : i ≠ 6 := by omega
    simp only [hne, if_false] at hp
    by_cases hc : charAt s pos ≠ NUL
    · rw [in_ether_loop_step s fuel pos i hw hc hi6]
      have key : ∀ p hw2, p ≤ pos + 3 → (i + 1 = 6 → p ≤ pos + 2) →
          ∃ hw', in_ether_loop s fuel p (i + 1) hw2 = some (-1, hw') := by
        intro p hw2 h1 h2
        apply ih (i + 1) p hw2 (by omega)
        by_cases h : i + 1 = 6
        · simp only [h, if_true]
          have := h2 h
          omega
        · simp only [h, if_false]
          omega
      have hpos : ∀ c : Char, (if c = ':' ∧ i + 1 ≠ 6 then pos + 3 else pos + 2) ≤ pos + 3 := by
        intro c; split <;> omega
      have hpos6 : ∀ c : Char, i + 1 = 6 →
          (if c = ':' ∧ i + 1 ≠ 6 then pos + 3 else pos + 2) ≤ pos + 2 := by
        intro c h; simp [h]
      split
      · split
        · exact key _ _ (hpos _) (hpos6 _)
        · split
          · exact key _ _ (hpos _) (hpos6 _)
          · split
            · exact key _ _ (by omega) (by omega)
            · exact ⟨hw, rfl⟩
      · exact ⟨hw, rfl⟩
    · rw [in_ether_loop_exit s _ pos i hw (by simp [hc])]
      have : pos ≠ 17 := by omega
      exact ⟨hw, by simp [this]⟩


/-- While the scan keeps to the full-width layout (octet `i` starts at
offset `3 * i`), the call succeeds exactly when all remaining octets are
accepted, and then appends their bytes. -/
theorem in_ether_loop_on_track (s : CStr) :
    ∀ (fuel i pos : Nat) (hw : List Nat), i + fuel = 6 →
      pos = (if i = 6 then 17 else 3 * i) →
      (octetsOk s fuel i = true →
        in_ether_loop s fuel pos i hw = some (0, hw ++ octetVals s fuel i)) ∧
      (octetsOk s fuel i = false →
        ∃ hw', in_ether_loop s fuel pos i hw = some (-1, hw')) := by
  intro fuel
  induction fuel with
  | zero =>
    intro i pos hw hi hp
    have h6 : i = 6 := by omega
    subst h6
    simp only [if_true] at hp
    subst hp
    rw [in_ether_loop_exit s 0 17 6 hw (by simp)]
    simp [octetsOk, octetVals]
  | succ fuel ih =>
    intro i pos hw hi hp
    have hi6 : i < 6 := by omega
    have hne : i ≠ 6 := by omega
    simp only [hne, if_false] at hp
    subst hp
    have hcx : isHexDigit ':' = false := by decide
    have hnx : isHexDigit NUL = false := by decide
    have hnc : ¬ (NUL = ':') := by decide
    by_cases hc : charAt s (3 * i) ≠ NUL
    · rw [in_ether_loop_step s fuel (3 * i) i hw hc hi6]
      simp only [octetsOk, octetVals, octetOk, octetVal]
      by_cases h1 : isHexDigit (charAt s (3 * i)) = true
      · simp only [h1, if_true, Bool.true_and]
        by_cases h3 : charAt s (3 * i + 2) = ':'
        · -- the separator is present: the next octet starts on the layout
          have hp' : (if charAt s (3 * i + 2) = ':' ∧ i + 1 ≠ 6 then 3 * i + 3 else 3 * i + 2) =
              (if i + 1 = 6 then 17 else 3 * (i + 1)) := by
            by_cases h6 : i + 1 = 6
            · simp only [h6, ne_eq, not_true_eq_false, and_false, if_false, if_true]; omega
            · simp only [h3, h6, ne_eq, not_false_eq_true, and_self, if_true, if_false]; omega
          by_cases h2 : isHexDigit (charAt s (3 * i + 1)) = true
          · have := ih (i + 1) _ (hw ++ [16 * hexVal (charAt s (3 * i)) +
              hexVal (charAt s (3 * i + 1))]) (by omega) hp'
            simpa [h2, h3] using this
          · by_cases hcol : charAt s (3 * i + 1) = ':'
            · have := ih (i + 1) _ (hw ++ [hexVal (charAt s (3 * i))]) (by omega) hp'
              simpa [h2, h3, hcol, hcx] using this
            · by_cases hnul : charAt s (3 * i + 1) = NUL
              · obtain ⟨hw', h'⟩ := in_ether_loop_behind s fuel (i + 1) (3 * i + 1)
                  (hw ++ [hexVal (charAt s (3 * i))]) (by omega)
                  (by split <;> omega)
                simp [hnul, hnx, hnc, h']
              · simp [h2, hcol, hnul]
        · by_cases h6 : i + 1 = 6
          · -- last octet: no separator is needed
            obtain rfl : i = 5 := by omega
            simp only [Nat.reduceMul, Nat.reduceAdd, ne_eq, not_true_eq_false, and_false,
              if_false, if_true, beq_self_eq_true, Bool.true_or, Bool.and_true] at h1 h3 ih ⊢
            have ih' := fun hw2 => ih 6 17 hw2 (by omega) (by simp)
            by_cases h2 : isHexDigit (charAt s 16) = true
            · simpa [h2] using ih' (hw ++ [16 * hexVal (charAt s 15) + hexVal (charAt s 16)])
            · by_cases hcol : charAt s 16 = ':'
              · simpa [hcol, hcx] using ih' (hw ++ [hexVal (charAt s 15)])
              · by_cases hnul : charAt s 16 = NUL
                · obtain ⟨hw', h'⟩ := in_ether_loop_behind s fuel 6 16
                    (hw ++ [hexVal (charAt s 15)]) (by omega) (by simp)
                  simp [hnul, hnx, hnc, h']
                · simp [h2, hcol, hnul]
          · -- a missing separator before the sixth octet: the scan falls behind
            have hi5 : ¬ i = 5 := by omega
            have hb : ∀ hw2, ∃ hw', in_ether_loop s fuel (3 * i + 2) (i + 1) hw2 =
                some (-1, hw') := fun hw2 =>
              in_ether_loop_behind s fuel (i + 1) (3 * i + 2) hw2 (by omega)
                (by split <;> omega)
            by_cases h2 : isHexDigit (charAt s (3 * i + 1)) = true
            · obtain ⟨hw', h'⟩ := hb (hw ++ [16 * hexVal (charAt s (3 * i)) +
                hexVal (charAt s (3 * i + 1))])
              simp [h2, h3, hi5, h6, h']
            · by_cases hcol : charAt s (3 * i + 1) = ':'
              · obtain ⟨hw', h'⟩ := hb (hw ++ [hexVal (charAt s (3 * i))])
                simp [h3, hi5, h6, hcol, hcx, h']
              · by_cases hnul : charAt s (3 * i + 1) = NUL
                · obtain ⟨hw', h'⟩ := in_ether_loop_behind s fuel (i + 1) (3 * i + 1)
                    (hw ++ [hexVal (charAt s (3 * i))]) (by omega)
                    (by split <;> omega)
                  simp [hnul, hnx, hnc, h']
                · simp [h2, hcol, hnul]
      · simp [h1]
    · rw [in_ether_loop_exit s _ (3 * i) i hw (by simp [hc])]
      have : 3 * i ≠ 17 := by omega
      have hc' : charAt s (3 * i) = NUL := by simpa using hc
      simp [this, octetsOk, octetOk, hc', hnx]


/-- Acceptance by `in_ether`, in full: success with the bytes of the six
octets when all six are accepted, failure otherwise. -/
theorem in_ether_spec (s : CStr) :
    (octetsOk s 6 0 = true → in_ether s = some (0, octetVals s 6 0)) ∧
    (octetsOk s 6 0 = false → ∃ hw, in_ether s = some (-1, hw)) := by
  have h := in_ether_loop_on_track s 6 0 0 [] (by omega) (by simp)
  simpa [in_ether] using h

theorem octetsOk_iff (s : CStr) :
    octetsOk s 6 0 = true ↔
      ∀ k, k < 6 → isHexDigit (charAt s (3 * k)) = true ∧
        (isHexDigit (charAt s (3 * k + 1)) = true ∨ charAt s (3 * k + 1) = ':') ∧
        (k < 5 → charAt s (3 * k + 2) = ':') := by
  constructor
  · intro h k hk
    simp only [octetsOk, octetOk, Bool.and_true, Bool.and_eq_true, Bool.or_eq_true,
      beq_iff_eq] at h
    interval_cases k <;> simp_all
  · intro h
    have h0 := h 0 (by omega)
    have h1 := h 1 (by omega)
    have h2 := h 2 (by omega)
    have h3 := h 3 (by omega)
    have h4 := h 4 (by omega)
    have h5 := h 5 (by omega)
    simp only [octetsOk, octetOk, Bool.and_true, Bool.and_eq_true, Bool.or_eq_true,
      beq_iff_eq]
    simp_all

theorem charAt_of_le_length (s : CStr) (k : Nat) (h : s.length ≤ k) : charAt s k = NUL := by
  unfold charAt
  simp [List.getD_eq_getElem?_getD, List.getElem?_eq_none h]

/-! ## send_wol -/

/-- A successful decode stores exactly six bytes. -/
theorem in_ether_success_length (s : CStr) (h : List Nat) (hdec : in_ether s = some (0, h)) :
    ∃ v0 v1 v2 v3 v4 v5, h = [v0, v1, v2, v3, v4, v5] := by
  have hspec := in_ether_spec s
  by_cases hok : octetsOk s 6 0 = true
  · have := hspec.1 hok
    rw [hdec] at this
    simp only [Option.some.injEq, Prod.mk.injEq, true_and] at this
    exact ⟨_, _, _, _, _, _, this⟩
  · obtain ⟨hw, h'⟩ := hspec.2 (by simpa using hok)
    rw [hdec] at h'
    simp at h'

theorem foldl_store (f : Nat → Nat) (l : List Nat) (buf : List Nat) :
    l.foldl (fun buf i => buf ++ [f i]) buf = buf ++ l.map f := by
  induction l generalizing buf with
  | nil => simp
  | cons a l ih => simp [ih]

theorem foldl_repeat (x : List Nat) (l : List Nat) (buf : List Nat) :
    l.foldl (fun buf _ => buf ++ x) buf = buf ++ (List.replicate l.length x).flatten := by
  induction l generalizing buf with
  | nil => simp
  | cons a l ih => simp [ih, List.replicate_succ]

/-- The message is six bytes 0xFF followed by sixteen copies of
`ethaddr[0..5]`. -/
theorem send_wol_packetBuf_eq (ethaddr : List Nat) :
    send_wol_packetBuf ethaddr =
      List.replicate 6 0xff ++
        (List.replicate 16 ((List.range 6).map fun i => ethaddr.getD i 0)).flatten := by
  unfold send_wol_packetBuf
  simp only [foldl_store]
  rw [foldl_repeat]
  simp [List.map_const]

/-- Layout of the message built from six address bytes. -/
theorem send_wol_packetBuf_layout (v0 v1 v2 v3 v4 v5 : Nat) :
    (send_wol_packetBuf [v0, v1, v2, v3, v4, v5]).length = 102 ∧
    (∀ i, i < 6 → (send_wol_packetBuf [v0, v1, v2, v3, v4, v5])[i]? = some 0xFF) ∧
    (∀ k i, k < 16 → i < 6 →
      (send_wol_packetBuf [v0, v1, v2, v3, v4, v5])[6 + 6 * k + i]? =
        [v0, v1, v2, v3, v4, v5][i]?) := by
  have e : send_wol_packetBuf [v0, v1, v2, v3, v4, v5] =
      List.replicate 6 0xff ++ (List.replicate 16 [v0, v1, v2, v3, v4, v5]).flatten := by
    rw [send_wol_packetBuf_eq]
    rfl
  rw [e]
  refine ⟨by simp, ?_, ?_⟩
  · intro i hi
    interval_cases i <;> rfl
  · intro k i hk hi
    interval_cases k <;> interval_cases i <;> rfl

/-! ## strtok -/

theorem splitOnP_eq_takeWhile_cons (p : Char → Bool) (s : CStr) :
    s.splitOnP p = s.takeWhile (fun c => !p c) ::
      (match s.dropWhile (fun c => !p c) with
        | [] => []
        | _ :: r => r.splitOnP p) := by
  induction s with
  | nil => simp
  | cons c cs ih =>
    by_cases hc : p c = true
    · simp [List.splitOnP_cons, hc, List.takeWhile_cons, List.dropWhile_cons]
    · have hc' : p c = false := by simpa using hc
      rw [List.splitOnP_cons, ih]
      simp [hc', List.takeWhile_cons, List.dropWhile_cons]

theorem length_dropWhile_le (p : Char → Bool) (s : CStr) :
    (s.dropWhile p).length ≤ s.length := by
  induction s with
  | nil => simp
  | cons c cs ih =>
    rw [List.dropWhile_cons]
    split
    · simp only [List.length_cons]; omega
    · exact Nat.le_refl _

/-- A NULL result of `strtok`: no field is left. -/
theorem strtok_none (delims s : CStr) (h : strtok s delims = none) : fieldsOf delims s = [] := by
  induction s with
  | nil => simp [fieldsOf]
  | cons c cs ih =>
    by_cases hc : isDelim delims c = true
    · have e : strtok (c :: cs) delims = strtok cs delims := by
        simp only [strtok, List.dropWhile_cons, hc, if_true]
      rw [e] at h
      have := ih h
      simpa [fieldsOf, List.splitOnP_cons, hc] using this
    · simp [strtok, List.dropWhile_cons, hc] at h

/-- A token returned by `strtok`: it is the first field, the saved position
holds the remaining fields and is strictly shorter than the string scanned. -/
theorem strtok_some (delims s t r : CStr) (h : strtok s delims = some (t, r)) :
    fieldsOf delims s = t :: fieldsOf delims r ∧ r.length < s.length ∧ t ≠ [] ∧
      ∀ c ∈ t, isDelim delims c = false := by
  induction s with
  | nil => simp [strtok] at h
  | cons c cs ih =>
    by_cases hc : isDelim delims c = true
    · have e : strtok (c :: cs) delims = strtok cs delims := by
        simp only [strtok, List.dropWhile_cons, hc, if_true]
      rw [e] at h
      obtain ⟨h1, h2, h3, h4⟩ := ih h
      refine ⟨?_, ?_, h3, h4⟩
      · simpa [fieldsOf, List.splitOnP_cons, hc] using h1
      · simp only [List.length_cons]; omega
    · have hc' : isDelim delims c = false := by simpa using hc
      have hd : (c :: cs).dropWhile (isDelim delims) = c :: cs := by
        simp [List.dropWhile_cons, hc']
      simp only [strtok, hd, Option.some.injEq, Prod.mk.injEq] at h
      obtain ⟨ht, hr⟩ := h
      have htw : (c :: cs).takeWhile (fun c => !isDelim delims c) =
          c :: cs.takeWhile (fun c => !isDelim delims c) := by
        simp [List.takeWhile_cons, hc']
      have hdw : (c :: cs).dropWhile (fun c => !isDelim delims c) =
          cs.dropWhile (fun c => !isDelim delims c) := by
        simp [List.dropWhile_cons, hc']
      rw [htw] at ht
      rw [hdw] at hr
      refine ⟨?_, ?_, ?_, ?_⟩
      · unfold fieldsOf
        rw [splitOnP_eq_takeWhile_cons, htw, hdw, ← ht, ← hr]
        cases hcase : cs.dropWhile (fun c => !isDelim delims c) with
        | nil => simp
        | cons x r' => simp
      · rw [← hr]
        have := length_dropWhile_le (fun c => !isDelim delims c) cs
        have h2 : (cs.dropWhile (fun c => !isDelim delims c)).tail.length ≤
            (cs.dropWhile (fun c => !isDelim delims c)).length := by simp
        simp only [List.length_cons]; omega
      · rw [← ht]; simp
      · intro x hx
        rw [← ht, ← htw] at hx
        have := List.mem_takeWhile_imp hx
        simpa using this

/-! ## formatMAC -/

theorem formatMAC_loop_none (delims : CStr) (fuel : Nat) (f : CStr) :
    formatMAC_loop delims fuel none f = some f := by
  cases fuel <;> rfl

theorem intercalate_cons_cons (sep a b : CStr) (l : List CStr) :
    sep.intercalate (a :: b :: l) = a ++ sep ++ sep.intercalate (b :: l) := by
  simp [List.intercalate, List.intersperse]

/-- The loop of `formatMAC` appends the width-fixed fields, joined by the
delimiter string, provided the fuel exceeds the length of what is left. -/
theorem formatMAC_loop_some (delims : CStr) :
    ∀ (fuel : Nat) (tok save f : CStr), save.length < fuel →
      formatMAC_loop delims fuel (some (tok, save)) f =
        some (f ++ delims.intercalate ((tok :: fieldsOf delims save).map padOctet)) := by
  intro fuel
  induction fuel with
  | zero => intro tok save f h; omega
  | succ fuel ih =>
    intro tok save f h
    have hpad : (if strlen tok = 1 then strcat f (strcat (strcpy [] ['0']) tok)
        else strcat f tok) = f ++ padOctet tok := by
      unfold padOctet strlen strcat strcpy
      split <;> simp
    rw [formatMAC_loop]
    simp only [hpad]
    cases hs : strtok save delims with
    | none =>
      rw [strtok_none delims save hs]
      simp [formatMAC_loop_none, List.intercalate]
    | some tr =>
      obtain ⟨t', r⟩ := tr
      obtain ⟨h1, h2, _, _⟩ := strtok_some delims save t' r hs
      rw [h1]
      simp only [Option.isSome_some, if_true]
      rw [ih t' r _ (by omega)]
      simp [intercalate_cons_cons, strcat]

theorem fieldsOf_colon (raw : CStr) :
    fieldsOf [':'] raw = (raw.splitOn ':').filter fun o => !o.isEmpty := by
  have e : isDelim [':'] = fun c => c == ':' := by
    funext c
    by_cases h : c = ':' <;> simp [isDelim, h]
  unfold fieldsOf List.splitOn
  rw [e]

/-- The whole of `formatMAC`: it returns 0 and appends the normalized form of
its first argument to the content of its second. -/
theorem formatMAC_eq (raw f : CStr) : formatMAC raw f = some (0, f ++ normalizeSpec raw) := by
  simp only [formatMAC, normalizeSpec]
  rw [← fieldsOf_colon]
  cases hs : strtok raw [':'] with
  | none =>
    rw [strtok_none _ raw hs]
    simp [formatMAC_loop_none, List.intercalate]
  | some tr =>
    obtain ⟨t, r⟩ := tr
    obtain ⟨h1, h2, _, _⟩ := strtok_some _ raw t r hs
    simp only [strlen]
    rw [formatMAC_loop_some _ _ t r f h2, h1]

theorem padOctet_two (o : CStr) (hl : o.length = 1 ∨ o.length = 2)
    (hx : ∀ c ∈ o, isHexDigit c = true) :
    ∃ x y, padOctet o = [x, y] ∧ isHexDigit x = true ∧ isHexDigit y = true := by
  match o, hl, hx with
  | [a], _, hx => exact ⟨'0', a, by simp [padOctet], by decide, hx a (by simp)⟩
  | [a, b], _, hx => exact ⟨a, b, by simp [padOctet], hx a (by simp), hx b (by simp)⟩
  | [], hl, _ => simp at hl
  | _ :: _ :: _ :: _, hl, _ => simp at hl

theorem isCanonicalMAC_of_digits (a0 b0 a1 b1 a2 b2 a3 b3 a4 b4 a5 b5 : Char)
    (h : ∀ c ∈ [a0, b0, a1, b1, a2, b2, a3, b3, a4, b4, a5, b5], isHexDigit c = true) :
    isCanonicalMAC
      [a0, b0, ':', a1, b1, ':', a2, b2, ':', a3, b3, ':', a4, b4, ':', a5, b5] = true := by
  simp only [List.mem_cons, List.mem_singleton, forall_eq_or_imp, forall_eq,
    List.not_mem_nil, false_implies, implies_true, and_true] at h
  obtain ⟨h0, h0', h1, h1', h2, h2', h3, h3', h4, h4', h5, h5'⟩ := h
  simp only [isCanonicalMAC, Bool.and_eq_true, beq_iff_eq, List.all_eq_true, List.mem_range]
  refine ⟨rfl, ?_⟩
  intro k hk
  interval_cases k <;> simp [charAt, *]

/-! ## macForIP -/

theorem macForIP_scan_none (fuel : Nat) : macForIP_scan fuel none = some ([], false) := by
  cases fuel <;> rfl

/-- The token loop over one line returns the first token with a colon, or
reports that there is none. -/
theorem macForIP_scan_some :
    ∀ (fuel : Nat) (pch save : CStr), save.length < fuel →
      macForIP_scan fuel (some (pch, save)) =
        match (pch :: fieldsOf [' '] save).find? (fun t => strchr t ':') with
        | some t => if t.length < 32 then some (t, true) else none
        | none => some ([], false) := by
  intro fuel
  induction fuel with
  | zero => intro pch save h; omega
  | succ fuel ih =>
    intro pch save h
    rw [macForIP_scan]
    by_cases hc : strchr pch ':' = true
    · by_cases hfit : pch.length < 32
      · simp [hc, List.find?_cons, strcpy_into, strlen, hfit]
      · simp [hc, List.find?_cons, strcpy_into, strlen, hfit]
    · have hc' : strchr pch ':' = false := by simpa using hc
      simp only [hc', Bool.false_eq_true, if_false, List.find?_cons]
      cases hs : strtok save [' '] with
      | none =>
        rw [strtok_none _ save hs, macForIP_scan_none]
        rfl
      | some tr =>
        obtain ⟨t', r⟩ := tr
        obtain ⟨h1, h2, _, _⟩ := strtok_some _ save t' r hs
        rw [ih t' r (by omega), h1]

/-- One round of the line loop of `macForIP`: a line without a colon token
overwrites the buffer with `no MAC found` and the loop goes on; a line with
one ends the loop, the normalized token appended to the buffer, unless the
token does not fit `macAddrTemp[32]`. -/
theorem macForIP_lines_cons (buff : CStr) (rest : List CStr) (macAddr : CStr) (rv : Int) :
    macForIP_lines (buff :: rest) macAddr rv =
      match macToken buff with
      | none => macForIP_lines rest "no MAC found".toList rv
      | some t => if t.length < 32 then some (0, macAddr ++ normalizeSpec t) else none := by
  rw [macForIP_lines]
  unfold macToken
  cases hs : strtok buff [' '] with
  | none =>
    rw [strtok_none _ buff hs, macForIP_scan_none]
    rfl
  | some tr =>
    obtain ⟨t, r⟩ := tr
    obtain ⟨h1, h2, _, _⟩ := strtok_some _ buff t r hs
    rw [macForIP_scan_some _ t r (by simpa [strlen] using h2), h1]
    cases hf : (t :: fieldsOf [' '] r).find? (fun t => strchr t ':') with
    | none => rfl
    | some tok =>
      by_cases hfit : tok.length < 32
      · simp [hfit, formatMAC_eq]
      · simp [hfit]

/-- Lines without a colon token, at least one of them: the buffer ends as
`no MAC found` and the return value is unchanged. -/
theorem macForIP_lines_not_found (lines : List CStr) (macAddr : CStr) (rv : Int)
    (hne : lines ≠ []) (hno : ∀ l ∈ lines, macToken l = none) :
    macForIP_lines lines macAddr rv = some (rv, "no MAC found".toList) := by
  induction lines generalizing macAddr with
  | nil => exact absurd rfl hne
  | cons l rest ih =>
    rw [macForIP_lines_cons, hno l (by simp)]
    cases rest with
    | nil => rfl
    | cons l' rest' =>
      exact ih _ (by simp) (fun x hx => hno x (List.mem_cons_of_mem _ hx))

/-- The first line with a colon token ends the loop.  When the token fits
`macAddrTemp[32]` the buffer is what it was on entry when that line comes
first, `no MAC found` otherwise, followed by the normalized token. -/
theorem macForIP_lines_found (pre post : List CStr) (l t macAddr : CStr) (rv : Int)
    (hpre : ∀ x ∈ pre, macToken x = none) (hl : macToken l = some t)
    (hfit : t.length < 32) :
    macForIP_lines (pre ++ l :: post) macAddr rv =
      some (0, (if pre = [] then macAddr else "no MAC found".toList) ++ normalizeSpec t) := by
  induction pre generalizing macAddr with
  | nil => simp [macForIP_lines_cons, hl, hfit]
  | cons x pre ih =>
    rw [List.cons_append, macForIP_lines_cons, hpre x (by simp)]
    have := ih "no MAC found".toList (fun y hy => hpre y (List.mem_cons_of_mem _ hy))
    simp only [this]
    split <;> simp

/-- The first line with a colon token ends the loop.  When the token does not
fit `macAddrTemp[32]` the copy runs past the end of the array. -/
theorem macForIP_lines_overflow (pre post : List CStr) (l t macAddr : CStr) (rv : Int)
    (hpre : ∀ x ∈ pre, macToken x = none) (hl : macToken l = some t)
    (hbig : 32 ≤ t.length) :
    macForIP_lines (pre ++ l :: post) macAddr rv = none := by
  have hfit : ¬ t.length < 32 := by omega
  induction pre generalizing macAddr with
  | nil => simp [macForIP_lines_cons, hl, hfit]
  | cons x pre ih =>
    rw [List.cons_append, macForIP_lines_cons, hpre x (by simp)]
    exact ih "no MAC found".toList (fun y hy => hpre y (List.mem_cons_of_mem _ hy))

/-! ## formatModelIdentifier -/

/-- The result of `strtok` on a string that starts with a token followed by a delimiter. -/
theorem strtok_token_delim (delims t rest : CStr) (x : Char) (ht : t ≠ [])
    (hnd : ∀ c ∈ t, isDelim delims c = false) (hx : isDelim delims x = true) :
    strtok (t ++ x :: rest) delims = some (t, rest) := by
  cases t with
  | nil => exact absurd rfl ht
  | cons a t =>
    have ha : isDelim delims a = false := hnd a (by simp)
    have hd : (a :: t ++ x :: rest).dropWhile (isDelim delims) = a :: (t ++ x :: rest) := by
      simp [List.dropWhile_cons, ha]
    have htw : ∀ l : CStr, (∀ c ∈ l, isDelim delims c = false) →
        (l ++ x :: rest).takeWhile (fun c => !isDelim delims c) = l ∧
        (l ++ x :: rest).dropWhile (fun c => !isDelim delims c) = x :: rest := by
      intro l hl
      induction l with
      | nil => simp [List.takeWhile_cons, List.dropWhile_cons, hx]
      | cons b l ih =>
        have hb : isDelim delims b = false := hl b (by simp)
        have := ih (fun c hc => hl c (by simp [hc]))
        simp [List.takeWhile_cons, List.dropWhile_cons, hb, this]
    obtain ⟨h1, h2⟩ := htw (a :: t) hnd
    simp only [strtok, hd]
    rw [← List.cons_append, h1, h2]
    rfl

/-- The result of `strtok` on a string that is one token up to its end. -/
theorem strtok_token_end (delims t : CStr) (ht : t ≠ [])
    (hnd : ∀ c ∈ t, isDelim delims c = false) :
    strtok t delims = some (t, []) := by
  cases t with
  | nil => exact absurd rfl ht
  | cons a t =>
    have ha : isDelim delims a = false := hnd a (by simp)
    have hd : (a :: t).dropWhile (isDelim delims) = a :: t := by
      simp [List.dropWhile_cons, ha]
    have htw : ∀ l : CStr, (∀ c ∈ l, isDelim delims c = false) →
        l.takeWhile (fun c => !isDelim delims c) = l ∧
        l.dropWhile (fun c => !isDelim delims c) = [] := by
      intro l hl
      induction l with
      | nil => simp
      | cons b l ih =>
        have hb : isDelim delims b = false := hl b (by simp)
        have := ih (fun c hc => hl c (by simp [hc]))
        simp [List.takeWhile_cons, List.dropWhile_cons, hb, this]
    obtain ⟨h1, h2⟩ := htw (a :: t) hnd
    simp only [strtok, hd]
    rw [h1, h2]
    rfl

theorem formatModelIdentifier_loop_none (delims : CStr) (fuel : Nat) (m : Int) (f : CStr) :
    formatModelIdentifier_loop delims fuel none m f = some (1, f) := by
  cases fuel <;> rfl

/-- While no token equals `model`, the loop of `formatModelIdentifier` runs
to the last token with `modelLabel` still 0 and stores nothing. -/
theorem formatModelIdentifier_loop_no_model (delims : CStr) :
    ∀ (fuel : Nat) (tok save f : CStr), save.length < fuel →
      "model".toList ∉ tok :: fieldsOf delims save →
      formatModelIdentifier_loop delims fuel (some (tok, save)) 0 f = some (1, f) := by
  intro fuel
  induction fuel with
  | zero => intro tok save f h; omega
  | succ fuel ih =>
    intro tok save f h hno
    have htok : tok ≠ "model".toList := fun e => hno (by simp [e])
    have hcmp : strcmp tok "model".toList ≠ 0 := by
      unfold strcmp
      rw [if_neg htok]
      decide
    rw [formatModelIdentifier_loop]
    simp only [hcmp, ne_eq, not_false_eq_true, if_true]
    have h01 : ¬ ((0 : Int) = 1) := by decide
    simp only [h01, if_false]
    cases hs : strtok save delims with
    | none => exact formatModelIdentifier_loop_none _ _ _ _
    | some tr =>
      obtain ⟨t', r⟩ := tr
      obtain ⟨h1, h2, _, _⟩ := strtok_some delims save t' r hs
      apply ih t' r f (by omega)
      rw [← h1]
      intro hmem
      exact hno (List.mem_cons_of_mem _ hmem)

/-- The embedding of `formatModelIdentifier` never runs out of fuel. -/
theorem formatModelIdentifier_total (blob out : CStr) :
    ∃ r, formatModelIdentifier blob out = some r := by
  have hl : ∀ (fuel : Nat) (tok save : CStr) (m : Int) (f : CStr), save.length < fuel →
      ∃ r, formatModelIdentifier_loop [Char.ofNat 34, '='] fuel (some (tok, save)) m f =
        some r := by
    intro fuel
    induction fuel with
    | zero => intro tok save m f h; omega
    | succ fuel ih =>
      intro tok save m f h
      have next : ∀ m', ∃ r, formatModelIdentifier_loop [Char.ofNat 34, '='] fuel
          (strtok save [Char.ofNat 34, '=']) m' f = some r := by
        intro m'
        cases hs : strtok save [Char.ofNat 34, '='] with
        | none => exact ⟨_, formatModelIdentifier_loop_none _ _ _ _⟩
        | some tr =>
          obtain ⟨t', r⟩ := tr
          obtain ⟨_, h2, _, _⟩ := strtok_some _ save t' r hs
          exact ih t' r m' f (by omega)
      rw [formatModelIdentifier_loop]
      split
      · split
        · exact ⟨_, rfl⟩
        · exact next m
      · exact next 1
  simp only [formatModelIdentifier]
  cases hs : strtok blob [Char.ofNat 34, '='] with
  | none => exact ⟨_, formatModelIdentifier_loop_none _ _ _ _⟩
  | some tr =>
    obtain ⟨t, r⟩ := tr
    obtain ⟨_, h2, _, _⟩ := strtok_some _ blob t r hs
    exact hl _ t r 0 out h2

/-! ## pingIP -/

/-- The comparison of `pingIP` succeeds exactly when the line begins with the
phrase. -/
theorem strncmp_strlen_eq_zero (e buff : CStr) :
    strncmp e buff (strlen e) = 0 ↔ List.IsPrefix e buff := by
  unfold strncmp strlen
  rw [List.prefix_iff_eq_take]
  by_cases h : e.take e.length = buff.take e.length
  · simp only [h, if_true, true_iff]
    rw [← h, List.take_length]
  · simp only [h, if_false]
    constructor
    · intro h1
      exact absurd h1 (by decide)
    · intro h1
      exact absurd (by rw [List.take_length]; exact h1) h

/-- The line loop of `pingIP` started with return value 0: the result is 1
when some line begins with the phrase and 0 otherwise. -/
theorem pingIP_lines_eq (e : CStr) (lines : List CStr) :
    pingIP_lines e lines 0 = if ∃ l ∈ lines, List.IsPrefix e l then 1 else 0 := by
  induction lines with
  | nil => simp [pingIP_lines]
  | cons l rest ih =>
    rw [pingIP_lines]
    by_cases h : List.IsPrefix e l
    · have h0 := (strncmp_strlen_eq_zero e l).2 h
      simp [h0, h]
    · have h0 : ¬ strncmp e l (strlen e) = 0 := fun h' => h ((strncmp_strlen_eq_zero e l).1 h')
      simp only [h0, if_false, ih, List.mem_cons, exists_eq_or_imp, h, false_or]

/-! ## formatModelIdentifier, by tokens -/

/-- The loop of `formatModelIdentifier` once the key has been seen: the next
token different from `model` is the value. -/
theorem formatModelIdentifier_loop_label (delims : CStr) :
    ∀ (fuel : Nat) (tok save f : CStr), save.length < fuel →
      formatModelIdentifier_loop delims fuel (some (tok, save)) 1 f =
        some (match ((tok :: fieldsOf delims save).dropWhile
            fun t => t == "model".toList).head? with
          | some V => (0, f ++ V)
          | none => (1, f)) := by
  intro fuel
  induction fuel with
  | zero => intro tok save f h; omega
  | succ fuel ih =>
    intro tok save f h
    rw [formatModelIdentifier_loop]
    by_cases htok : tok = "model".toList
    · have hcmp : strcmp tok "model".toList = 0 := by
        unfold strcmp
        rw [if_pos htok]
      have hb : (tok == "model".toList) = true := by rw [htok]; exact beq_self_eq_true _
      simp only [hcmp, ne_eq, not_true_eq_false, if_false, List.dropWhile_cons, hb, if_true]
      cases hs : strtok save delims with
      | none =>
        rw [strtok_none delims save hs, formatModelIdentifier_loop_none]
        rfl
      | some tr =>
        obtain ⟨t', r⟩ := tr
        obtain ⟨h1, h2, _, _⟩ := strtok_some delims save t' r hs
        rw [ih t' r f (by omega), h1]
    · have hcmp : strcmp tok "model".toList ≠ 0 := by
        unfold strcmp
        rw [if_neg htok]
        decide
      have hb : (tok == "model".toList) = false := by
        rw [beq_eq_false_iff_ne]
        exact htok
      simp only [hcmp, ne_eq, not_false_eq_true, if_true, List.dropWhile_cons, hb,
        Bool.false_eq_true, if_false, List.head?_cons, strcat]

/-- The loop of `formatModelIdentifier` before the key has been seen. -/
theorem formatModelIdentifier_loop_scan (delims : CStr) :
    ∀ (fuel : Nat) (tok save f : CStr), save.length < fuel →
      formatModelIdentifier_loop delims fuel (some (tok, save)) 0 f =
        some (match modelValue (tok :: fieldsOf delims save) with
          | some V => (0, f ++ V)
          | none => (1, f)) := by
  intro fuel
  induction fuel with
  | zero => intro tok save f h; omega
  | succ fuel ih =>
    intro tok save f h
    by_cases htok : tok = "model".toList
    · -- the key: from here on the loop runs with the label set
      have hb : (tok != "model".toList) = false := by
        rw [htok]; simp only [bne_self_eq_false]
      have e : modelValue (tok :: fieldsOf delims save) =
          ((tok :: fieldsOf delims save).dropWhile fun t => t == "model".toList).head? := by
        simp only [modelValue, List.dropWhile_cons, hb, Bool.false_eq_true, if_false]
      rw [e]
      refine Eq.trans ?_ (formatModelIdentifier_loop_label delims (fuel + 1) tok save f h)
      have hcmp : strcmp tok "model".toList = 0 := by
        unfold strcmp
        rw [if_pos htok]
      rw [formatModelIdentifier_loop, formatModelIdentifier_loop]
      simp only [hcmp, ne_eq, not_true_eq_false, if_false]
    · have hcmp : strcmp tok "model".toList ≠ 0 := by
        unfold strcmp
        rw [if_neg htok]
        decide
      have hb : (tok != "model".toList) = true := by
        rw [bne_iff_ne]
        exact htok
      have h01 : ¬ ((0 : Int) = 1) := by decide
      rw [formatModelIdentifier_loop]
      simp only [hcmp, ne_eq, not_false_eq_true, if_true, h01, if_false, modelValue,
        List.dropWhile_cons, hb]
      cases hs : strtok save delims with
      | none =>
        rw [strtok_none delims save hs, formatModelIdentifier_loop_none]
        rfl
      | some tr =>
        obtain ⟨t', r⟩ := tr
        obtain ⟨h1, h2, _, _⟩ := strtok_some delims save t' r hs
        rw [ih t' r f (by omega), h1]
        rfl

/-- The whole of `formatModelIdentifier`: it appends the value located in
the token sequence and returns 0, or returns 1 and stores nothing. -/
theorem formatModelIdentifier_eq (blob out : CStr) :
    formatModelIdentifier blob out =
      some (match modelValue (fieldsOf [Char.ofNat 34, '='] blob) with
        | some V => (0, out ++ V)
        | none => (1, out)) := by
  simp only [formatModelIdentifier]
  cases hs : strtok blob [Char.ofNat 34, '='] with
  | none =>
    rw [strtok_none _ blob hs, formatModelIdentifier_loop_none]
    rfl
  | some tr =>
    obtain ⟨t, r⟩ := tr
    obtain ⟨h1, h2, _, _⟩ := strtok_some _ blob t r hs
    rw [formatModelIdentifier_loop_scan _ _ t r out (by simpa [strlen] using h2), h1]

/-- Shape of a token sequence in which a value is located. -/
theorem modelValue_some (toks : List CStr) (V : CStr) (h : modelValue toks = some V) :
    ∃ pre mid post, toks = pre ++ "model".toList :: mid ++ V :: post ∧
      "model".toList ∉ pre ∧ (∀ t ∈ mid, t = "model".toList) ∧ V ≠ "model".toList := by
  unfold modelValue at h
  have h1 := (List.takeWhile_append_dropWhile (fun t => t != "model".toList) toks).symm
  generalize hpre : toks.takeWhile (fun t => t != "model".toList) = pre at h1
  generalize hr1 : toks.dropWhile (fun t => t != "model".toList) = r1 at h h1
  have hprop : "model".toList ∉ pre := by
    intro hm
    rw [← hpre] at hm
    have := List.mem_takeWhile_imp hm
    simp at this
  cases r1 with
  | nil => simp at h
  | cons x r =>
    have hx : x = "model".toList := by
      have := List.head_dropWhile_not (fun t => t != "model".toList) toks
        (by rw [hr1]; simp)
      simp only [hr1, List.head_cons] at this
      simpa using this
    subst hx
    have hb : ("model".toList == "model".toList) = true := beq_self_eq_true _
    rw [List.dropWhile_cons, if_pos hb] at h
    have h2 := (List.takeWhile_append_dropWhile (fun t => t == "model".toList) r).symm
    generalize hmid : r.takeWhile (fun t => t == "model".toList) = mid at h2
    generalize hr2 : r.dropWhile (fun t => t == "model".toList) = r2 at h h2
    cases r2 with
    | nil => simp at h
    | cons v post =>
      simp only [List.head?_cons, Option.some.injEq] at h
      subst h
      refine ⟨pre, mid, post, ?_, hprop, ?_, ?_⟩
      · rw [h1, h2]
        simp
      · intro t ht
        rw [← hmid] at ht
        have := List.mem_takeWhile_imp ht
        simpa using this
      · have := List.head_dropWhile_not (fun t => t == "model".toList) r
          (by rw [hr2]; simp)
        simp only [hr2, List.head_cons] at this
        simpa using this

/-! ## deviceInfoForHost -/

theorem deviceInfoForHost_scan_none (fuel : Nat) :
    deviceInfoForHost_scan fuel none = some ([], false) := by
  cases fuel <;> rfl

/-- The token loop over one line returns the first token with an equals
sign, or reports that there is none. -/
theorem deviceInfoForHost_scan_some :
    ∀ (fuel : Nat) (token save : CStr), save.length < fuel →
      deviceInfoForHost_scan fuel (some (token, save)) =
        match (token :: fieldsOf [' '] save).find? (fun t => strchr t '=') with
        | some t => if t.length < 64 then some (t, true) else none
        | none => some ([], false) := by
  intro fuel
  induction fuel with
  | zero => intro token save h; omega
  | succ fuel ih =>
    intro token save h
    rw [deviceInfoForHost_scan]
    by_cases hc : strchr token '=' = true
    · by_cases hfit : token.length < 64
      · simp [hc, List.find?_cons, strcpy_into, strlen, hfit]
      · simp [hc, List.find?_cons, strcpy_into, strlen, hfit]
    · have hc' : strchr token '=' = false := by simpa using hc
      simp only [hc', Bool.false_eq_true, if_false, List.find?_cons]
      cases hs : strtok save [' '] with
      | none =>
        rw [strtok_none _ save hs, deviceInfoForHost_scan_none]
        rfl
      | some tr =>
        obtain ⟨t', r⟩ := tr
        obtain ⟨h1, h2, _, _⟩ := strtok_some _ save t' r hs
        rw [ih t' r (by omega), h1]

/-- One round of the line loop of `deviceInfoForHost`: a line without an
equals token empties the buffer, sets the return value to 1 and the loop goes
on; a line with one ends the loop with the result of `formatModelIdentifier`
on that token, unless the token does not fit `modelID[64]`. -/
theorem deviceInfoForHost_lines_cons (buff : CStr) (rest : List CStr) (devInfo : CStr)
    (rv : Int) :
    deviceInfoForHost_lines (buff :: rest) devInfo rv =
      match eqToken buff with
      | none => deviceInfoForHost_lines rest [] 1
      | some t => if t.length < 64 then formatModelIdentifier t devInfo else none := by
  rw [deviceInfoForHost_lines]
  unfold eqToken
  cases hs : strtok buff [' '] with
  | none =>
    rw [strtok_none _ buff hs, deviceInfoForHost_scan_none]
    rfl
  | some tr =>
    obtain ⟨t, r⟩ := tr
    obtain ⟨h1, h2, _, _⟩ := strtok_some _ buff t r hs
    rw [deviceInfoForHost_scan_some _ t r (by simpa [strlen] using h2), h1]
    cases hf : (t :: fieldsOf [' '] r).find? (fun t => strchr t '=') with
    | none => rfl
    | some tok =>
      by_cases hfit : tok.length < 64
      · simp [hfit]
      · simp [hfit]

/-- Lines without an equals token, at least one of them: the call returns 1
and the buffer ends empty. -/
theorem deviceInfoForHost_lines_not_found (lines : List CStr) (devInfo : CStr) (rv : Int)
    (hne : lines ≠ []) (hno : ∀ l ∈ lines, eqToken l = none) :
    deviceInfoForHost_lines lines devInfo rv = some (1, []) := by
  induction lines generalizing devInfo rv with
  | nil => exact absurd rfl hne
  | cons l rest ih =>
    rw [deviceInfoForHost_lines_cons, hno l (by simp)]
    cases rest with
    | nil => rfl
    | cons l' rest' =>
      exact ih _ _ (by simp) (fun x hx => hno x (List.mem_cons_of_mem _ hx))

/-- The first line with an equals token ends the loop.  When the token fits
`modelID[64]` the result is that of `formatModelIdentifier` on the token; the
buffer it appends to is the one of entry when that line comes first, the
empty one otherwise. -/
theorem deviceInfoForHost_lines_found (pre post : List CStr) (l t devInfo : CStr) (rv : Int)
    (hpre : ∀ x ∈ pre, eqToken x = none) (hl : eqToken l = some t)
    (hfit : t.length < 64) :
    deviceInfoForHost_lines (pre ++ l :: post) devInfo rv =
      formatModelIdentifier t (if pre = [] then devInfo else []) := by
  induction pre generalizing devInfo rv with
  | nil => simp [deviceInfoForHost_lines_cons, hl, hfit]
  | cons x pre ih =>
    rw [List.cons_append, deviceInfoForHost_lines_cons, hpre x (by simp)]
    have := ih [] 1 (fun y hy => hpre y (List.mem_cons_of_mem _ hy))
    simp only [this]
    split <;> simp

/-- The first line with an equals token ends the loop.  When the token does
not fit `modelID[64]` the copy runs past the end of the array. -/
theorem deviceInfoForHost_lines_overflow (pre post : List CStr) (l t devInfo : CStr)
    (rv : Int) (hpre : ∀ x ∈ pre, eqToken x = none) (hl : eqToken l = some t)
    (hbig : 64 ≤ t.length) :
    deviceInfoForHost_lines (pre ++ l :: post) devInfo rv = none := by
  have hfit : ¬ t.length < 64 := by omega
  induction pre generalizing devInfo rv with
  | nil => simp [deviceInfoForHost_lines_cons, hl, hfit]
  | cons x pre ih =>
    rw [List.cons_append, deviceInfoForHost_lines_cons, hpre x (by simp)]
    exact ih [] 1 (fun y hy => hpre y (List.mem_cons_of_mem _ hy))

/-- With an empty device-info buffer, a successful launch and a first equals
token that fits `modelID[64]`, `deviceInfoForHost` returns what
`formatModelIdentifier` returns on that token, whatever lines follow. -/
theorem deviceInfoForHost_fitting_token (popen : CStr → Option (List CStr)) (host : CStr)
    (hostIP : Option CStr) (pre post : List CStr) (l t : CStr)
    (hout : popen (deviceInfoForHost_command host hostIP) = some (pre ++ l :: post))
    (hpre : ∀ x ∈ pre, eqToken x = none) (hl : eqToken l = some t)
    (hfit : t.length < 64) :
    deviceInfoForHost popen host hostIP [] = formatModelIdentifier t [] := by
  simp only [deviceInfoForHost, hout]
  rw [deviceInfoForHost_lines_found pre post l t [] 0 hpre hl hfit]
  split <;> rfl

/-! ## in_ether: groups and letter case -/

/-- A character between two others is one of the characters numbered from the
first to the second. -/
theorem char_of_range (c lo hi : Char) (h : lo ≤ c ∧ c ≤ hi) :
    ∃ n, lo.toNat ≤ n ∧ n ≤ hi.toNat ∧ c = Char.ofNat n :=
  ⟨c.toNat, (char_le_iff _ _).1 h.1, (char_le_iff _ _).1 h.2, (Char.ofNat_toNat c).symm⟩

theorem upperHex_class (c : Char) :
    isHexDigit (upperHex c) = isHexDigit c ∧ hexVal (upperHex c) = hexVal c ∧
      (upperHex c = ':' ↔ c = ':') := by
  unfold upperHex
  by_cases h : 'a' ≤ c ∧ c ≤ 'f'
  · obtain ⟨n, h1, h2, rfl⟩ := char_of_range c 'a' 'f' h
    have h1' : 97 ≤ n := h1
    have h2' : n ≤ 102 := h2
    rw [if_pos h]
    interval_cases n <;> decide
  · rw [if_neg h]
    exact ⟨rfl, rfl, Iff.rfl⟩

theorem lowerHex_class (c : Char) :
    isHexDigit (lowerHex c) = isHexDigit c ∧ hexVal (lowerHex c) = hexVal c ∧
      (lowerHex c = ':' ↔ c = ':') := by
  unfold lowerHex
  by_cases h : 'A' ≤ c ∧ c ≤ 'F'
  · obtain ⟨n, h1, h2, rfl⟩ := char_of_range c 'A' 'F' h
    have h1' : 65 ≤ n := h1
    have h2' : n ≤ 70 := h2
    rw [if_pos h]
    interval_cases n <;> decide
  · rw [if_neg h]
    exact ⟨rfl, rfl, Iff.rfl⟩

theorem charAt_map (f : Char → Char) (hf : f NUL = NUL) (s : CStr) (k : Nat) :
    charAt (s.map f) k = f (charAt s k) := by
  unfold charAt
  induction s generalizing k with
  | nil => simp [hf]
  | cons a l ih =>
    cases k with
    | zero => simp
    | succ k => simpa using ih k

/-- A character map that keeps NUL, the hex digits with their values and the
colon does not change what `in_ether` accepts nor the bytes it decodes. -/
theorem octets_map (f : Char → Char) (hf : f NUL = NUL)
    (hc : ∀ c, isHexDigit (f c) = isHexDigit c ∧ hexVal (f c) = hexVal c ∧
      (f c = ':' ↔ c = ':')) (s : CStr) :
    ∀ n i, octetsOk (s.map f) n i = octetsOk s n i ∧
      octetVals (s.map f) n i = octetVals s n i := by
  have hcol : ∀ c, (f c == ':') = (c == ':') := by
    intro c
    by_cases h : c = ':'
    · have := (hc c).2.2.2 h
      rw [this, h]
    · have : ¬ f c = ':' := fun h' => h ((hc c).2.2.1 h')
      simp [h, this]
  intro n
  induction n with
  | zero => intro i; exact ⟨rfl, rfl⟩
  | succ n ih =>
    intro i
    obtain ⟨h1, h2⟩ := ih (i + 1)
    constructor
    · simp only [octetsOk, octetOk, charAt_map f hf, (hc _).1, hcol, h1]
    · simp only [octetVals, octetVal, charAt_map f hf, (hc _).1, (hc _).2.1, h2]

/-- The return value of `in_ether` and, on success, the bytes are the same
for a string and its image under such a map. -/
theorem in_ether_map (f : Char → Char) (hf : f NUL = NUL)
    (hc : ∀ c, isHexDigit (f c) = isHexDigit c ∧ hexVal (f c) = hexVal c ∧
      (f c = ':' ↔ c = ':')) (s : CStr) :
    (in_ether (s.map f)).map Prod.fst = (in_ether s).map Prod.fst ∧
      ∀ hw, in_ether s = some (0, hw) → in_ether (s.map f) = some (0, hw) := by
  obtain ⟨hok, hval⟩ := octets_map f hf hc s 6 0
  have h1 := in_ether_spec s
  have h2 := in_ether_spec (s.map f)
  rw [hok, hval] at h2
  by_cases h : octetsOk s 6 0 = true
  · rw [h1.1 h, h2.1 h]
    refine ⟨rfl, fun hw he => he⟩
  · have h' : octetsOk s 6 0 = false := by simpa using h
    obtain ⟨x, hx⟩ := h1.2 h'
    obtain ⟨y, hy⟩ := h2.2 h'
    rw [hx, hy]
    refine ⟨rfl, ?_⟩
    intro hw hcontra
    simp at hcontra

/-- Six groups, the first five each followed by a colon, then anything: the
call succeeds with the bytes of the groups. -/
theorem in_ether_groups (a0 b0 a1 b1 a2 b2 a3 b3 a4 b4 a5 b5 : Char) (rest : CStr)
    (h0 : isGroup a0 b0 = true) (h1 : isGroup a1 b1 = true) (h2 : isGroup a2 b2 = true)
    (h3 : isGroup a3 b3 = true) (h4 : isGroup a4 b4 = true) (h5 : isGroup a5 b5 = true) :
    in_ether (a0 :: b0 :: ':' :: a1 :: b1 :: ':' :: a2 :: b2 :: ':' :: a3 :: b3 :: ':' ::
        a4 :: b4 :: ':' :: a5 :: b5 :: rest) =
      some (0, [groupVal a0 b0, groupVal a1 b1, groupVal a2 b2, groupVal a3 b3,
        groupVal a4 b4, groupVal a5 b5]) := by
  have hs := (in_ether_spec (a0 :: b0 :: ':' :: a1 :: b1 :: ':' :: a2 :: b2 :: ':' ::
    a3 :: b3 :: ':' :: a4 :: b4 :: ':' :: a5 :: b5 :: rest)).1
  simp only [isGroup, Bool.and_eq_true, Bool.or_eq_true, beq_iff_eq] at h0 h1 h2 h3 h4 h5
  have hok : octetsOk (a0 :: b0 :: ':' :: a1 :: b1 :: ':' :: a2 :: b2 :: ':' ::
      a3 :: b3 :: ':' :: a4 :: b4 :: ':' :: a5 :: b5 :: rest) 6 0 = true := by
    simp only [octetsOk, octetOk, charAt, List.getD_cons_zero, List.getD_cons_succ,
      Nat.reduceMul, Nat.reduceAdd, Bool.and_eq_true, Bool.or_eq_true, beq_iff_eq]
    simp [h0, h1, h2, h3, h4, h5]
  have := hs hok
  simpa [octetVals, octetVal, charAt, groupVal] using this

/-- A string of at least 17 characters, character by character. -/
theorem exists_seventeen (s : CStr) (h : 17 ≤ s.length) :
    ∃ c0 c1 c2 c3 c4 c5 c6 c7 c8 c9 c10 c11 c12 c13 c14 c15 c16 rest,
      s = c0 :: c1 :: c2 :: c3 :: c4 :: c5 :: c6 :: c7 :: c8 :: c9 :: c10 :: c11 :: c12 ::
        c13 :: c14 :: c15 :: c16 :: rest := by
  rcases s with _ | ⟨c0, s⟩
  · simp at h
  rcases s with _ | ⟨c1, s⟩
  · simp at h
  rcases s with _ | ⟨c2, s⟩
  · simp at h
  rcases s with _ | ⟨c3, s⟩
  · simp at h
  rcases s with _ | ⟨c4, s⟩
  · simp at h
  rcases s with _ | ⟨c5, s⟩
  · simp at h
  rcases s with _ | ⟨c6, s⟩
  · simp at h
  rcases s with _ | ⟨c7, s⟩
  · simp at h
  rcases s with _ | ⟨c8, s⟩
  · simp at h
  rcases s with _ | ⟨c9, s⟩
  · simp at h
  rcases s with _ | ⟨c10, s⟩
  · simp at h
  rcases s with _ | ⟨c11, s⟩
  · simp at h
  rcases s with _ | ⟨c12, s⟩
  · simp at h
  rcases s with _ | ⟨c13, s⟩
  · simp at h
  rcases s with _ | ⟨c14, s⟩
  · simp at h
  rcases s with _ | ⟨c15, s⟩
  · simp at h
  rcases s with _ | ⟨c16, s⟩
  · simp at h
  exact ⟨c0, c1, c2, c3, c4, c5, c6, c7, c8, c9, c10, c11, c12, c13, c14, c15, c16, s, rfl⟩


/-! ## formatMAC followed by in_ether -/

/-- The normalized form of octets joined by colons: the width-fixed octets
joined by colons. -/
theorem normalizeSpec_intercalate (octs : List CStr) (hne : octs ≠ [])
    (hoct : ∀ o ∈ octs, o ≠ [] ∧ ':' ∉ o) :
    normalizeSpec ([':'].intercalate octs) = [':'].intercalate (octs.map padOctet) := by
  have hsplit : ([':'].intercalate octs).splitOn ':' = octs :=
    List.splitOn_intercalate _ ':' (fun l hl => (hoct l hl).2) hne
  have hfilter : octs.filter (fun o => !o.isEmpty) = octs := by
    rw [List.filter_eq_self]
    intro o ho
    have := (hoct o ho).1
    cases o with
    | nil => exact absurd rfl this
    | cons a l => simp
  unfold normalizeSpec
  rw [hsplit, hfilter]

/-- A width-fixed octet of one or two hex digits is a two-digit group with
the value of the octet. -/
theorem padOctet_value (o : CStr) (hl : o.length = 1 ∨ o.length = 2)
    (hx : ∀ c ∈ o, isHexDigit c = true) :
    ∃ x y, padOctet o = [x, y] ∧ isGroup x y = true ∧ groupVal x y = octetHex o := by
  match o, hl, hx with
  | [a], _, hx =>
    have ha := hx a (by simp)
    refine ⟨'0', a, by simp [padOctet], ?_, ?_⟩
    · simp [isGroup, ha]
      decide
    · have h0 : hexVal '0' = 0 := by decide
      simp [groupVal, ha, octetHex, h0]
  | [a, b], _, hx =>
    have ha := hx a (by simp)
    have hb := hx b (by simp)
    refine ⟨a, b, by simp [padOctet], ?_, ?_⟩
    · simp [isGroup, ha, hb]
    · simp [groupVal, hb, octetHex]
  | [], hl, _ => simp at hl
  | _ :: _ :: _ :: _, hl, _ => simp at hl

/-! ## formatMAC on its own output -/

/-- Every field is non-empty and free of delimiters. -/
theorem fieldsOf_clean (delims : CStr) :
    ∀ (n : Nat) (s : CStr), s.length ≤ n →
      ∀ t ∈ fieldsOf delims s, t ≠ [] ∧ ∀ c ∈ t, isDelim delims c = false := by
  intro n
  induction n with
  | zero =>
    intro s hs t ht
    have : s = [] := List.eq_nil_of_length_eq_zero (by omega)
    subst this
    simp [fieldsOf] at ht
  | succ n ih =>
    intro s hs t ht
    cases hk : strtok s delims with
    | none =>
      rw [strtok_none delims s hk] at ht
      simp at ht
    | some tr =>
      obtain ⟨t', r⟩ := tr
      obtain ⟨h1, h2, h3, h4⟩ := strtok_some delims s t' r hk
      rw [h1] at ht
      rcases List.mem_cons.1 ht with e | e
      · rw [e]
        exact ⟨h3, h4⟩
      · exact ih r (by omega) t e

/-- A width-fixed octet is non-empty, free of colons, and is left as it is by
a second width fix. -/
theorem padOctet_clean (o : CStr) (hne : o ≠ []) (hcol : ':' ∉ o) :
    padOctet o ≠ [] ∧ ':' ∉ padOctet o ∧ padOctet (padOctet o) = padOctet o := by
  unfold padOctet
  by_cases h : o.length = 1
  · simp only [h, if_true, List.length_cons]
    refine ⟨by simp, ?_, by simp⟩
    intro hmem
    rcases List.mem_cons.1 hmem with e | e
    · revert e
      decide
    · exact hcol e
  · simp only [h, if_false]
    exact ⟨hne, hcol, trivial⟩

/-- The normalized form is a fixed point of normalization. -/
theorem normalizeSpec_idem (x : CStr) : normalizeSpec (normalizeSpec x) = normalizeSpec x := by
  have hx : normalizeSpec x = [':'].intercalate ((fieldsOf [':'] x).map padOctet) := by
    unfold normalizeSpec
    rw [fieldsOf_colon]
  have hclean := fieldsOf_clean [':'] x.length x (Nat.le_refl _)
  rw [hx]
  cases hf : fieldsOf [':'] x with
  | nil => rfl
  | cons t ts =>
    rw [hf] at hclean
    have hcol : ∀ o ∈ t :: ts, o ≠ [] ∧ ':' ∉ o := by
      intro o ho
      obtain ⟨h1, h2⟩ := hclean o ho
      refine ⟨h1, fun hmem => ?_⟩
      have := h2 ':' hmem
      revert this
      decide
    have hpad : ∀ o ∈ (t :: ts).map padOctet, o ≠ [] ∧ ':' ∉ o := by
      intro o ho
      obtain ⟨o', ho', rfl⟩ := List.mem_map.1 ho
      obtain ⟨h1, h2, _⟩ := padOctet_clean o' (hcol o' ho').1 (hcol o' ho').2
      exact ⟨h1, h2⟩
    rw [normalizeSpec_intercalate _ (by simp) hpad, List.map_map]
    congr 1
    apply List.map_congr_left
    intro o ho
    exact (padOctet_clean o (hcol o ho).1 (hcol o ho).2).2.2

/-- A canonical string is its own normalized form. -/
theorem normalizeSpec_canonical (s : CStr) (h : isCanonicalMAC s = true) :
    normalizeSpec s = s := by
  simp only [isCanonicalMAC, Bool.and_eq_true, beq_iff_eq, List.all_eq_true,
    List.mem_range] at h
  obtain ⟨hlen, hall⟩ := h
  obtain ⟨c0, c1, c2, c3, c4, c5, c6, c7, c8, c9, c10, c11, c12, c13, c14, c15, c16, rest,
    rfl⟩ := exists_seventeen s (by omega)
  have hrest : rest = [] := by
    simp only [List.length_cons] at hlen
    exact List.eq_nil_of_length_eq_zero (by omega)
  subst hrest
  have k0 := hall 0 (by omega)
  have k1 := hall 1 (by omega)
  have k2 := hall 2 (by omega)
  have k3 := hall 3 (by omega)
  have k4 := hall 4 (by omega)
  have k5 := hall 5 (by omega)
  have k6 := hall 6 (by omega)
  have k7 := hall 7 (by omega)
  have k8 := hall 8 (by omega)
  have k9 := hall 9 (by omega)
  have k10 := hall 10 (by omega)
  have k11 := hall 11 (by omega)
  have k12 := hall 12 (by omega)
  have k13 := hall 13 (by omega)
  have k14 := hall 14 (by omega)
  have k15 := hall 15 (by omega)
  have k16 := hall 16 (by omega)
  simp only [charAt, List.getD_cons_zero, List.getD_cons_succ, Nat.reduceMod, Nat.reduceEqDiff,
    if_true, if_false, beq_iff_eq, Nat.zero_mod] at k0 k1 k2 k3 k4 k5 k6 k7 k8
  simp only [charAt, List.getD_cons_zero, List.getD_cons_succ, Nat.reduceMod, Nat.reduceEqDiff,
    if_true, if_false, beq_iff_eq, Nat.zero_mod] at k9 k10 k11 k12 k13 k14 k15 k16
  subst k2 k5 k8 k11 k14
  have e : c0 :: c1 :: ':' :: c3 :: c4 :: ':' :: c6 :: c7 :: ':' :: c9 :: c10 :: ':' ::
      c12 :: c13 :: ':' :: [c15, c16] =
      [':'].intercalate [[c0, c1], [c3, c4], [c6, c7], [c9, c10], [c12, c13], [c15, c16]] := by
    simp [List.intercalate, List.intersperse]
  rw [e, normalizeSpec_intercalate _ (by simp)]
  · simp [padOctet]
  · intro o ho
    simp only [List.mem_cons, List.mem_singleton, List.not_mem_nil, or_false] at ho
    have hx : ∀ a b : Char, isHexDigit a = true → isHexDigit b = true →
        [a, b] ≠ [] ∧ ':' ∉ [a, b] := by
      intro a b ha hb
      refine ⟨by simp, fun hmem => ?_⟩
      simp only [List.mem_cons, List.mem_singleton, List.not_mem_nil, or_false] at hmem
      rcases hmem with e | e
      · exact isHexDigit_ne_colon a ha e.symm
      · exact isHexDigit_ne_colon b hb e.symm
    rcases ho with e | e | e | e | e | e <;> rw [e]
    · exact hx _ _ k0 k1
    · exact hx _ _ k3 k4
    · exact hx _ _ k6 k7
    · exact hx _ _ k9 k10
    · exact hx _ _ k12 k13
    · exact hx _ _ k15 k16

/-! # The claims -/

/-- C1: every 17-character string `XX:XX:XX:XX:XX:XX` of hex digits is
decoded by `in_ether` with return value 0, and the bytes written are exactly
the six values `16 * hex(first digit) + hex(second digit)`, octet by octet. -/
theorem in_ether_canonical (a0 b0 a1 b1 a2 b2 a3 b3 a4 b4 a5 b5 : Char)
    (h : ∀ c ∈ [a0, b0, a1, b1, a2, b2, a3, b3, a4, b4, a5, b5], isHexDigit c = true) :
    in_ether [a0, b0, ':', a1, b1, ':', a2, b2, ':', a3, b3, ':', a4, b4, ':', a5, b5] =
      some (0, [16 * hexVal a0 + hexVal b0, 16 * hexVal a1 + hexVal b1,
        16 * hexVal a2 + hexVal b2, 16 * hexVal a3 + hexVal b3,
        16 * hexVal a4 + hexVal b4, 16 * hexVal a5 + hexVal b5]) := by
  simp only [List.mem_cons, List.mem_singleton, forall_eq_or_imp, forall_eq,
    List.not_mem_nil, false_implies, implies_true, and_true] at h
  obtain ⟨h0, h0', h1, h1', h2, h2', h3, h3', h4, h4', h5, h5'⟩ := h
  have hs := (in_ether_spec
    [a0, b0, ':', a1, b1, ':', a2, b2, ':', a3, b3, ':', a4, b4, ':', a5, b5]).1
  simp only [octetsOk, octetOk, octetVals, octetVal, charAt, List.getD_cons_zero,
    List.getD_cons_succ, Nat.reduceMul, Nat.reduceAdd, h0, h0', h1, h1', h2, h2', h3, h3',
    h4, h4', h5, h5'] at hs
  simpa using hs

/-- C1, at the address of the spec: `00:1B:63:84:45:E6` decodes to
`[0x00, 0x1B, 0x63, 0x84, 0x45, 0xE6]`. -/
theorem in_ether_canonical_witness :
    in_ether "00:1B:63:84:45:E6".toList = some (0, [0x00, 0x1B, 0x63, 0x84, 0x45, 0xE6]) :=
  in_ether_canonical '0' '0' '1' 'B' '6' '3' '8' '4' '4' '5' 'E' '6' (by decide)


/-- C2, as stated, fails: a string longer than 17 characters and a
17-character string with a colon in a second-digit position are both decoded
with return value 0, and neither has the form `XX:XX:XX:XX:XX:XX`. -/
theorem in_ether_accepts_noncanonical :
    (in_ether "00:1B:63:84:45:E6!".toList = some (0, [0x00, 0x1B, 0x63, 0x84, 0x45, 0xE6]) ∧
      isCanonicalMAC "00:1B:63:84:45:E6!".toList = false) ∧
    (in_ether "0::1B:63:84:45:E6".toList = some (0, [0x00, 0x1B, 0x63, 0x84, 0x45, 0xE6]) ∧
      isCanonicalMAC "0::1B:63:84:45:E6".toList = false) := by
  decide!

/-- C2, amended: `in_ether` returns 0 or -1; it returns 0 exactly when the
string has at least 17 characters and, for each octet `k` of 0..5, character
`3k` is a hex digit, character `3k+1` is a hex digit or a colon, and (before
the sixth octet) character `3k+2` is a colon.  So every `XX:XX:XX:XX:XX:XX`
string returns 0, every string shorter than 17 characters returns -1, and so
does every string with a non-hex character in a first-digit position. -/
theorem in_ether_accepts_iff (s : CStr) :
    ((∃ hw, in_ether s = some (0, hw)) ∨ (∃ hw, in_ether s = some (-1, hw))) ∧
    ((∃ hw, in_ether s = some (0, hw)) ↔
      17 ≤ s.length ∧ ∀ k, k < 6 → isHexDigit (charAt s (3 * k)) = true ∧
        (isHexDigit (charAt s (3 * k + 1)) = true ∨ charAt s (3 * k + 1) = ':') ∧
        (k < 5 → charAt s (3 * k + 2) = ':')) ∧
    (isCanonicalMAC s = true → ∃ hw, in_ether s = some (0, hw)) ∧
    (s.length < 17 → ∃ hw, in_ether s = some (-1, hw)) ∧
    (∀ k, k < 6 → isHexDigit (charAt s (3 * k)) = false →
      ∃ hw, in_ether s = some (-1, hw)) := by
  have hspec := in_ether_spec s
  have hiff := octetsOk_iff s
  have hlen : octetsOk s 6 0 = true → 17 ≤ s.length := by
    intro hok
    by_contra hlt
    have h16 := charAt_of_le_length s 16 (by omega)
    have h5 := (hiff.1 hok 5 (by omega)).2.1
    simp only [Nat.reduceMul, Nat.reduceAdd, h16] at h5
    revert h5
    decide
  have hfail : octetsOk s 6 0 = false → ¬ ∃ hw, in_ether s = some (0, hw) := by
    rintro hno ⟨hw, h0⟩
    obtain ⟨hw', h1⟩ := hspec.2 hno
    rw [h0] at h1
    simp at h1
  have main : (∃ hw, in_ether s = some (0, hw)) ↔ octetsOk s 6 0 = true := by
    constructor
    · intro h
      by_contra hno
      exact hfail (by simpa using hno) h
    · intro h
      exact ⟨_, hspec.1 h⟩
  have hneg : ¬ octetsOk s 6 0 = true → ∃ hw, in_ether s = some (-1, hw) := fun h =>
    hspec.2 (by simpa using h)
  refine ⟨?_, ?_, ?_, ?_, ?_⟩
  · by_cases hok : octetsOk s 6 0 = true
    · exact Or.inl ⟨_, hspec.1 hok⟩
    · exact Or.inr (hneg hok)
  · rw [main]
    constructor
    · intro hok
      exact ⟨hlen hok, hiff.1 hok⟩
    · intro h
      exact hiff.2 h.2
  · intro hcan
    rw [main, hiff]
    simp only [isCanonicalMAC, Bool.and_eq_true, beq_iff_eq, List.all_eq_true, List.mem_range] at hcan
    intro k hk
    have e0 := hcan.2 (3 * k) (by omega)
    have e1 := hcan.2 (3 * k + 1) (by omega)
    have m0 : ¬ (3 * k % 3 = 2) := by omega
    have m1 : ¬ ((3 * k + 1) % 3 = 2) := by omega
    simp only [m0, m1, if_false] at e0 e1
    refine ⟨e0, Or.inl e1, ?_⟩
    intro hk5
    have e2 := hcan.2 (3 * k + 2) (by omega)
    have m2 : (3 * k + 2) % 3 = 2 := by omega
    simpa [m2] using e2
  · intro hlt
    apply hneg
    intro hok
    have := hlen hok
    omega
  · intro k hk hx
    apply hneg
    intro hok
    have := (hiff.1 hok k hk).1
    rw [hx] at this
    exact Bool.false_ne_true this


/-- C3: for a hardware address `h` produced by a successful decode, the
message `send_wol` passes to `sendto` is exactly 102 bytes long, its bytes
0..5 are 0xFF, and byte `6 + 6k + i` is `h[i]` for `k` in 0..15, `i` in 0..5. -/
theorem send_wol_magic_packet (env : SockEnv) (macAddr : CStr) (h : List Nat)
    (hdec : in_ether macAddr = some (0, h)) (hsock : 0 ≤ env.socket)
    (hopt : 0 ≤ env.setsockopt) :
    ∃ r p, send_wol env macAddr = some (r, [SockCall.socket, SockCall.setsockopt env.socket,
        SockCall.sendto env.socket p 0xffffffff 60000, SockCall.close env.socket]) ∧
      h.length = 6 ∧ p.length = 102 ∧ (∀ i, i < 6 → p[i]? = some 0xFF) ∧
      (∀ k i, k < 16 → i < 6 → p[6 + 6 * k + i]? = h[i]?) := by
  obtain ⟨v0, v1, v2, v3, v4, v5, rfl⟩ := in_ether_success_length macAddr h hdec
  obtain ⟨hl, hff, hrep⟩ := send_wol_packetBuf_layout v0 v1 v2 v3 v4 v5
  have htake : (send_wol_packetBuf [v0, v1, v2, v3, v4, v5]).take 102 =
      send_wol_packetBuf [v0, v1, v2, v3, v4, v5] := List.take_of_length_le (by omega)
  have hs : ¬ env.socket < 0 := by omega
  have ho : ¬ env.setsockopt < 0 := by omega
  by_cases hsend : env.sendto < 0
  · refine ⟨-1, send_wol_packetBuf [v0, v1, v2, v3, v4, v5], ?_, rfl, hl, hff, hrep⟩
    simp [send_wol, hdec, hs, ho, hsend, htake]
  · refine ⟨0, send_wol_packetBuf [v0, v1, v2, v3, v4, v5], ?_, rfl, hl, hff, hrep⟩
    simp [send_wol, hdec, hs, ho, hsend, htake]

/-- C3 at `00:1B:63:84:45:E6`, with every socket call succeeding. -/
theorem send_wol_magic_packet_witness :
    ∃ r p, send_wol ⟨3, 0, 102⟩ "00:1B:63:84:45:E6".toList =
        some (r, [SockCall.socket, SockCall.setsockopt 3,
          SockCall.sendto 3 p 0xffffffff 60000, SockCall.close 3]) ∧
      [0x00, 0x1B, 0x63, 0x84, 0x45, 0xE6].length = 6 ∧ p.length = 102 ∧
      (∀ i, i < 6 → p[i]? = some 0xFF) ∧
      (∀ k i, k < 16 → i < 6 → p[6 + 6 * k + i]? = [0x00, 0x1B, 0x63, 0x84, 0x45, 0xE6][i]?) :=
  send_wol_magic_packet ⟨3, 0, 102⟩ "00:1B:63:84:45:E6".toList
    [0x00, 0x1B, 0x63, 0x84, 0x45, 0xE6] (by decide!) (by decide) (by decide)

/-- C4: for a raw MAC string of exactly six octets of one or two hex digits
joined by single colons, `formatMAC` with an empty output buffer returns 0
and produces a string of length 17 of the form `XX:XX:XX:XX:XX:XX`. -/
theorem formatMAC_canonical (octs : List CStr) (hlen : octs.length = 6)
    (hoct : ∀ o ∈ octs, (o.length = 1 ∨ o.length = 2) ∧ ∀ c ∈ o, isHexDigit c = true) :
    ∃ out, formatMAC ([':'].intercalate octs) [] = some (0, out) ∧ out.length = 17 ∧
      isCanonicalMAC out = true := by
  have hsplit : ([':'].intercalate octs).splitOn ':' = octs := by
    apply List.splitOn_intercalate
    · intro l hl hmem
      have := (hoct l hl).2 ':' hmem
      revert this
      decide
    · intro h
      rw [h] at hlen
      simp at hlen
  have hfilter : octs.filter (fun o => !o.isEmpty) = octs := by
    rw [List.filter_eq_self]
    intro o ho
    have := (hoct o ho).1
    cases o with
    | nil => simp at this
    | cons a l => simp
  refine ⟨normalizeSpec ([':'].intercalate octs), by simpa using formatMAC_eq _ [], ?_⟩
  unfold normalizeSpec
  rw [hsplit, hfilter]
  match octs, hlen, hoct with
  | [o0, o1, o2, o3, o4, o5], _, hoct =>
    obtain ⟨x0, y0, e0, hx0, hy0⟩ := padOctet_two o0 (hoct o0 (by simp)).1 (hoct o0 (by simp)).2
    obtain ⟨x1, y1, e1, hx1, hy1⟩ := padOctet_two o1 (hoct o1 (by simp)).1 (hoct o1 (by simp)).2
    obtain ⟨x2, y2, e2, hx2, hy2⟩ := padOctet_two o2 (hoct o2 (by simp)).1 (hoct o2 (by simp)).2
    obtain ⟨x3, y3, e3, hx3, hy3⟩ := padOctet_two o3 (hoct o3 (by simp)).1 (hoct o3 (by simp)).2
    obtain ⟨x4, y4, e4, hx4, hy4⟩ := padOctet_two o4 (hoct o4 (by simp)).1 (hoct o4 (by simp)).2
    obtain ⟨x5, y5, e5, hx5, hy5⟩ := padOctet_two o5 (hoct o5 (by simp)).1 (hoct o5 (by simp)).2
    have e : [':'].intercalate (List.map padOctet [o0, o1, o2, o3, o4, o5]) =
        [x0, y0, ':', x1, y1, ':', x2, y2, ':', x3, y3, ':', x4, y4, ':', x5, y5] := by
      simp [List.intercalate, List.intersperse, e0, e1, e2, e3, e4, e5]
    rw [e]
    refine ⟨rfl, isCanonicalMAC_of_digits _ _ _ _ _ _ _ _ _ _ _ _ ?_⟩
    intro c hc
    simp only [List.mem_cons, List.mem_singleton, List.not_mem_nil, or_false] at hc
    rcases hc with h | h | h | h | h | h | h | h | h | h | h | h <;> rw [h] <;> assumption

/-- C4 at the raw address `a:1b:2:3c:4:5`. -/
theorem formatMAC_canonical_witness :
    ∃ out, formatMAC ([':'].intercalate ["a".toList, "1b".toList, "2".toList, "3c".toList,
        "4".toList, "5".toList]) [] = some (0, out) ∧ out.length = 17 ∧
      isCanonicalMAC out = true :=
  formatMAC_canonical ["a".toList, "1b".toList, "2".toList, "3c".toList, "4".toList,
    "5".toList] (by decide) (by decide)

/-- C5: for every input string, `formatMAC` with an empty output buffer
returns 0 and produces the `:`-join, in the original order, of the non-empty
octets obtained by splitting the input on `:`, a one-character octet prefixed
with `0` and every other octet unchanged; the empty input gives the empty
string. -/
theorem formatMAC_normalizes (raw : CStr) :
    formatMAC raw [] = some (0, normalizeSpec raw) ∧ formatMAC [] [] = some (0, []) := by
  constructor
  · simpa using formatMAC_eq raw []
  · rfl

/-- C6, as stated, fails: for the neighbour-table line of the claim the
result is not the upper-case `0A:1B:02:3C:04:05`. -/
theorem macForIP_not_uppercase :
    macForIP (fun _ => some ["192.168.1.5 ether a:1b:2:3c:4:5 C eth0".toList])
        "192.168.1.5".toList [] ≠ some (0, "0A:1B:02:3C:04:05".toList) := by
  decide!

/-- C6, amended: when the output of the neighbour-table query is the single
line `192.168.1.5 ether a:1b:2:3c:4:5 C eth0` (with or without its line
feed), `macForIP` with an empty result buffer returns 0 and the MAC string
`0a:1b:02:3c:04:05`: every octet two characters wide, letters as in the
input. -/
theorem macForIP_single_line (popen : CStr → Option (List CStr)) (ipAddr line : CStr)
    (hline : line = "192.168.1.5 ether a:1b:2:3c:4:5 C eth0".toList ∨
      line = "192.168.1.5 ether a:1b:2:3c:4:5 C eth0\n".toList)
    (hout : popen (strcat "arp ".toList ipAddr) = some [line]) :
    macForIP popen ipAddr [] = some (0, "0a:1b:02:3c:04:05".toList) := by
  simp only [macForIP, hout]
  rcases hline with h | h <;> subst h <;> decide!

/-- C6, amended, at the address 192.168.1.5. -/
theorem macForIP_single_line_witness :
    macForIP (fun _ => some ["192.168.1.5 ether a:1b:2:3c:4:5 C eth0\n".toList])
        "192.168.1.5".toList [] = some (0, "0a:1b:02:3c:04:05".toList) :=
  macForIP_single_line (fun _ => some ["192.168.1.5 ether a:1b:2:3c:4:5 C eth0\n".toList])
    "192.168.1.5".toList "192.168.1.5 ether a:1b:2:3c:4:5 C eth0\n".toList (Or.inr rfl) rfl

/-- C7 on a two-line output: a header line without a colon, then the line
with the MAC address.  The result buffer, empty on entry, ends as
`no MAC found` followed by the normalized address. -/
theorem macForIP_after_header_line :
    macForIP (fun _ => some ["Address HWtype HWaddress Flags Mask Iface\n".toList,
        "192.168.1.5 ether a:1b:2:3c:4:5 C eth0\n".toList]) "192.168.1.5".toList [] =
      some (0, "no MAC found0a:1b:02:3c:04:05".toList) := by
  decide!

/-- C8 on the empty output: when the query prints no line at all, `macForIP`
returns 0 and leaves the result buffer as it was on entry. -/
theorem macForIP_no_output (ipAddr macAddr : CStr) :
    macForIP (fun _ => some []) ipAddr macAddr = some (0, macAddr) := by
  rfl

/-- C9, as stated, fails: the value `model` is non-empty and holds neither a
double quote nor an equals sign, yet on `model=model` the call returns 1 and
stores nothing. -/
theorem formatModelIdentifier_value_model :
    formatModelIdentifier "model=model".toList [] = some (1, []) ∧
      "model".toList ≠ [] ∧ Char.ofNat 34 ∉ "model".toList ∧ '=' ∉ "model".toList := by
  decide!

/-- C9, amended: for every non-empty value `V` that holds neither a double
quote nor an equals sign and is not the word `model`, `formatModelIdentifier`
on `model=V`, and on `model=V` wrapped in double quotes, with an empty output
buffer returns 0 and yields exactly `V`. -/
theorem formatModelIdentifier_value (V : CStr) (hne : V ≠ [])
    (hq : Char.ofNat 34 ∉ V) (he : '=' ∉ V) (hm : V ≠ "model".toList) :
    formatModelIdentifier ("model=".toList ++ V) [] = some (0, V) ∧
    formatModelIdentifier (Char.ofNat 34 :: "model=".toList ++ V ++ [Char.ofNat 34]) [] =
      some (0, V) := by
  have hnd : ∀ c ∈ V, isDelim [Char.ofNat 34, '='] c = false := by
    intro c hc
    have h1 : c ≠ Char.ofNat 34 := fun e => hq (e ▸ hc)
    have h2 : c ≠ '=' := fun e => he (e ▸ hc)
    simp [isDelim, h1, h2]
  have hmodel : ∀ c ∈ "model".toList, isDelim [Char.ofNat 34, '='] c = false := by decide
  have hcmp : strcmp V "model".toList ≠ 0 := by
    unfold strcmp
    rw [if_neg hm]
    decide
  have hself : strcmp "model".toList "model".toList = 0 := by decide
  have tail_ok : ∀ (fuel : Nat) (save : CStr),
      strtok save [Char.ofNat 34, '='] = some (V, []) →
      formatModelIdentifier_loop [Char.ofNat 34, '='] (fuel + 2)
        (some ("model".toList, save)) 0 [] = some (0, V) := by
    intro fuel save hs
    rw [formatModelIdentifier_loop]
    simp only [hself, ne_eq, not_true_eq_false, if_false, hs]
    rw [formatModelIdentifier_loop]
    simp only [hcmp, ne_eq, not_false_eq_true, if_true, strcat, List.nil_append]
  constructor
  · have h1 : strtok ("model=".toList ++ V) [Char.ofNat 34, '='] = some ("model".toList, V) :=
      strtok_token_delim _ "model".toList V '=' (by decide) hmodel (by decide)
    have hlen : strlen ("model=".toList ++ V) = (V.length + 4) + 2 := by
      simp [strlen]
    simp only [formatModelIdentifier, h1, hlen]
    exact tail_ok _ V (strtok_token_end _ V hne hnd)
  · have e : Char.ofNat 34 :: "model=".toList ++ V ++ [Char.ofNat 34] =
        Char.ofNat 34 :: ("model".toList ++ '=' :: (V ++ [Char.ofNat 34])) := by
      simp
    have h0 : strtok (Char.ofNat 34 :: ("model".toList ++ '=' :: (V ++ [Char.ofNat 34])))
        [Char.ofNat 34, '='] =
        strtok ("model".toList ++ '=' :: (V ++ [Char.ofNat 34])) [Char.ofNat 34, '='] := by
      have hq' : isDelim [Char.ofNat 34, '='] (Char.ofNat 34) = true := by decide
      simp only [strtok, List.dropWhile_cons, hq', if_true]
    have h1 : strtok ("model".toList ++ '=' :: (V ++ [Char.ofNat 34])) [Char.ofNat 34, '='] =
        some ("model".toList, V ++ [Char.ofNat 34]) :=
      strtok_token_delim _ "model".toList _ '=' (by decide) hmodel (by decide)
    have h2 : strtok (V ++ [Char.ofNat 34]) [Char.ofNat 34, '='] = some (V, []) :=
      strtok_token_delim _ V [] (Char.ofNat 34) hne hnd (by decide)
    have hlen : strlen (Char.ofNat 34 :: ("model".toList ++ '=' :: (V ++ [Char.ofNat 34]))) =
        (V.length + 6) + 2 := by
      simp [strlen]
    rw [e]
    simp only [formatModelIdentifier, h0, h1, hlen]
    exact tail_ok _ _ h2

/-- C9, amended, at the value of the spec: `model=AirPort4,88` yields
`AirPort4,88`. -/
theorem formatModelIdentifier_value_witness :
    formatModelIdentifier ("model=".toList ++ "AirPort4,88".toList) [] =
      some (0, "AirPort4,88".toList) ∧
    formatModelIdentifier
      (Char.ofNat 34 :: "model=".toList ++ "AirPort4,88".toList ++ [Char.ofNat 34]) [] =
      some (0, "AirPort4,88".toList) :=
  formatModelIdentifier_value "AirPort4,88".toList (by decide) (by decide) (by decide)
    (by decide)

/-- C10: when no token of the input, split on double quotes and equals
signs, is exactly `model`, `formatModelIdentifier` returns 1 and leaves the
output buffer unchanged. -/
theorem formatModelIdentifier_no_model (blob out : CStr)
    (h : "model".toList ∉ fieldsOf [Char.ofNat 34, '='] blob) :
    formatModelIdentifier blob out = some (1, out) := by
  simp only [formatModelIdentifier]
  cases hs : strtok blob [Char.ofNat 34, '='] with
  | none => exact formatModelIdentifier_loop_none _ _ _ _
  | some tr =>
    obtain ⟨t, r⟩ := tr
    obtain ⟨h1, h2, _, _⟩ := strtok_some _ blob t r hs
    apply formatModelIdentifier_loop_no_model _ _ t r out h2
    rw [← h1]
    exact h

/-- C10 at a blob without the key: `name=AirPort4,88`. -/
theorem formatModelIdentifier_no_model_witness :
    formatModelIdentifier "name=AirPort4,88".toList "kept".toList = some (1, "kept".toList) :=
  formatModelIdentifier_no_model "name=AirPort4,88".toList "kept".toList (by decide!)

/-- C11, as stated, fails: a line that contains the phrase after a leading
blank does not make `pingIP` report unreachable; the call returns 0. -/
theorem pingIP_phrase_inside_line :
    pingIP (fun _ => some [" 1 packets transmitted, 0 packets received\n".toList])
        "192.168.1.5".toList = some 0 ∧
      List.IsInfix "1 packets transmitted, 0 packets received".toList
        " 1 packets transmitted, 0 packets received\n".toList := by
  refine ⟨by decide!, ⟨[' '], ['\n'], by decide⟩⟩

/-- C11, amended: given a successful process launch, `pingIP` returns 1
exactly when some output line begins with the phrase
`1 packets transmitted, 0 packets received`, and returns 0 exactly when no
line begins with it. -/
theorem pingIP_unreachable_iff (popen : CStr → Option (List CStr)) (ipAddr : CStr)
    (lines : List CStr) (hout : popen (strcat "ping -c 1 ".toList ipAddr) = some lines) :
    (pingIP popen ipAddr = some 1 ↔
      ∃ l ∈ lines, List.IsPrefix "1 packets transmitted, 0 packets received".toList l) ∧
    (pingIP popen ipAddr = some 0 ↔
      ∀ l ∈ lines, ¬ List.IsPrefix "1 packets transmitted, 0 packets received".toList l) := by
  have e : pingIP popen ipAddr =
      some (pingIP_lines "1 packets transmitted, 0 packets received".toList lines 0) := by
    simp only [pingIP, hout]
  rw [e, pingIP_lines_eq]
  by_cases h : ∃ l ∈ lines,
      List.IsPrefix "1 packets transmitted, 0 packets received".toList l
  · rw [if_pos h]
    refine ⟨⟨fun _ => h, fun _ => rfl⟩, ⟨fun h1 => absurd h1 (by decide), ?_⟩⟩
    intro hall
    obtain ⟨l, hl, hp⟩ := h
    exact absurd hp (hall l hl)
  · rw [if_neg h]
    refine ⟨⟨fun h1 => absurd h1 (by decide), fun h1 => absurd h1 h⟩, ⟨?_, fun _ => rfl⟩⟩
    intro _ l hl hp
    exact h ⟨l, hl, hp⟩

/-- C11, amended, on the output of a probe that got no answer. -/
theorem pingIP_unreachable_iff_witness :
    (pingIP (fun _ => some ["PING 192.168.1.5: 56 data bytes\n".toList,
        "1 packets transmitted, 0 packets received, 100.0% packet loss\n".toList])
        "192.168.1.5".toList = some 1 ↔
      ∃ l ∈ ["PING 192.168.1.5: 56 data bytes\n".toList,
        "1 packets transmitted, 0 packets received, 100.0% packet loss\n".toList],
        List.IsPrefix "1 packets transmitted, 0 packets received".toList l) ∧
    (pingIP (fun _ => some ["PING 192.168.1.5: 56 data bytes\n".toList,
        "1 packets transmitted, 0 packets received, 100.0% packet loss\n".toList])
        "192.168.1.5".toList = some 0 ↔
      ∀ l ∈ ["PING 192.168.1.5: 56 data bytes\n".toList,
        "1 packets transmitted, 0 packets received, 100.0% packet loss\n".toList],
        ¬ List.IsPrefix "1 packets transmitted, 0 packets received".toList l) :=
  pingIP_unreachable_iff _ "192.168.1.5".toList _ rfl

/-- C12: when `in_ether` fails on the MAC string, `send_wol` returns -1 and
makes no socket call at all. -/
theorem send_wol_invalid_mac (env : SockEnv) (macAddr : CStr) (hw : List Nat)
    (h : in_ether macAddr = some (-1, hw)) :
    send_wol env macAddr = some (-1, []) := by
  simp [send_wol, h]

/-- C12 at the string `not-a-mac`. -/
theorem send_wol_invalid_mac_witness :
    send_wol ⟨3, 0, 102⟩ "not-a-mac".toList = some (-1, []) :=
  send_wol_invalid_mac ⟨3, 0, 102⟩ "not-a-mac".toList [] (by decide!)

/-- C13 on the empty output: when the query prints no line at all,
`deviceInfoForHost` returns 0 and leaves the device-info string as it was on
entry. -/
theorem deviceInfoForHost_no_output (host : CStr) (hostIP : Option CStr) (devInfo : CStr) :
    deviceInfoForHost (fun _ => some []) host hostIP devInfo = some (0, devInfo) := by
  rfl

/-- C14: for all arguments `buildDigCmd` returns 0 and sets the command
string, whatever it held before, to `dig @S -pPORT HOST.SERVICE.DOMAIN QUERY`,
where `S` is the server, or 224.0.0.251 when the server is NULL or empty; the
result does not depend on the previous content of the command string. -/
theorem buildDigCmd_eq (server : Option CStr)
    (hostName port serviceType domain query cmd : CStr) :
    buildDigCmd server hostName port serviceType domain query cmd =
      (0, "dig @".toList ++
        (match server with
          | none => "224.0.0.251".toList
          | some s => if s = [] then "224.0.0.251".toList else s) ++
        " -p".toList ++ port ++ " ".toList ++ hostName ++ ".".toList ++ serviceType ++
        ".".toList ++ domain ++ " ".toList ++ query) ∧
    ∀ cmd', buildDigCmd server hostName port serviceType domain query cmd' =
      buildDigCmd server hostName port serviceType domain query cmd := by
  refine ⟨?_, fun _ => rfl⟩
  cases server with
  | none =>
    simp [buildDigCmd, strcat, strcpy, SPACE, DOT_DELIMITER, mDNS_BCAST_ADDRESS]
  | some s =>
    by_cases hs : s = []
    · simp [buildDigCmd, strcat, strcpy, strcmp, SPACE, DOT_DELIMITER, mDNS_BCAST_ADDRESS, hs]
    · simp [buildDigCmd, strcat, strcpy, strcmp, SPACE, DOT_DELIMITER, mDNS_BCAST_ADDRESS, hs]

/-- C15 on a TAB-separated answer line: the whole line is one space-delimited
token of 69 characters with an equals sign.  The code copies it with `strcpy`
into `char modelID[64]`, past the end of the array, so the call has no
defined result, where `formatModelIdentifier` on that token returns 0 and
`MacBookPro5,1`. -/
theorem deviceInfoForHost_long_token :
    deviceInfoForHost
        (fun _ => some
          ["MacBook-Pro._device-info._tcp.local.\t10\tIN\tTXT\t\"model=MacBookPro5,1\"\n".toList])
        "MacBook-Pro".toList none [] = none ∧
    eqToken "MacBook-Pro._device-info._tcp.local.\t10\tIN\tTXT\t\"model=MacBookPro5,1\"\n".toList =
      some "MacBook-Pro._device-info._tcp.local.\t10\tIN\tTXT\t\"model=MacBookPro5,1\"\n".toList ∧
    "MacBook-Pro._device-info._tcp.local.\t10\tIN\tTXT\t\"model=MacBookPro5,1\"\n".toList.length
      = 69 ∧
    formatModelIdentifier
        "MacBook-Pro._device-info._tcp.local.\t10\tIN\tTXT\t\"model=MacBookPro5,1\"\n".toList [] =
      some (0, "MacBookPro5,1".toList) := by
  decide!

/-- C16: whenever `formatModelIdentifier` returns 0, the value it appended is
a token of the input whose immediately preceding token is `model`, and it is
the first token different from `model` after the first token `model`. -/
theorem formatModelIdentifier_success_shape (blob out res : CStr)
    (h : formatModelIdentifier blob out = some (0, res)) :
    ∃ pre mid post V,
      fieldsOf [Char.ofNat 34, '='] blob = pre ++ "model".toList :: mid ++ V :: post ∧
      "model".toList ∉ pre ∧ (∀ t ∈ mid, t = "model".toList) ∧ V ≠ "model".toList ∧
      (pre ++ "model".toList :: mid).getLast? = some "model".toList ∧ res = out ++ V := by
  rw [formatModelIdentifier_eq] at h
  cases hv : modelValue (fieldsOf [Char.ofNat 34, '='] blob) with
  | none =>
    rw [hv] at h
    simp at h
  | some V =>
    rw [hv] at h
    simp only [Option.some.injEq, Prod.mk.injEq, true_and] at h
    obtain ⟨pre, mid, post, h1, h2, h3, h4⟩ := modelValue_some _ V hv
    refine ⟨pre, mid, post, V, h1, h2, h3, h4, ?_, h.symm⟩
    have hne : "model".toList :: mid ≠ [] := by simp
    rw [List.getLast?_append_of_ne_nil _ hne, List.getLast?_eq_getLast _ hne]
    have hmem := List.getLast_mem hne
    rcases List.mem_cons.1 hmem with e | e
    · rw [e]
    · rw [h3 _ e]

/-- C16 at `model=AirPort4,88`. -/
theorem formatModelIdentifier_success_shape_witness :
    ∃ pre mid post V,
      fieldsOf [Char.ofNat 34, '='] "model=AirPort4,88".toList =
        pre ++ "model".toList :: mid ++ V :: post ∧
      "model".toList ∉ pre ∧ (∀ t ∈ mid, t = "model".toList) ∧ V ≠ "model".toList ∧
      (pre ++ "model".toList :: mid).getLast? = some "model".toList ∧
      "AirPort4,88".toList = [] ++ V :=
  formatModelIdentifier_success_shape "model=AirPort4,88".toList [] "AirPort4,88".toList
    (by decide!)

/-- C17: for a raw MAC string of exactly six octets of one or two hex digits
joined by single colons, `in_ether` applied to the result of `formatMAC`
returns 0, and its k-th byte is the hex value of the k-th octet. -/
theorem in_ether_formatMAC (octs : List CStr) (hlen : octs.length = 6)
    (hoct : ∀ o ∈ octs, (o.length = 1 ∨ o.length = 2) ∧ ∀ c ∈ o, isHexDigit c = true) :
    ∃ out, formatMAC ([':'].intercalate octs) [] = some (0, out) ∧
      in_ether out = some (0, octs.map octetHex) := by
  have hne : octs ≠ [] := by
    intro h
    rw [h] at hlen
    simp at hlen
  have hclean : ∀ o ∈ octs, o ≠ [] ∧ ':' ∉ o := by
    intro o ho
    constructor
    · intro h
      have := (hoct o ho).1
      rw [h] at this
      simp at this
    · intro hmem
      have := (hoct o ho).2 ':' hmem
      revert this
      decide
  refine ⟨normalizeSpec ([':'].intercalate octs), by simpa using formatMAC_eq _ [], ?_⟩
  rw [normalizeSpec_intercalate octs hne hclean]
  match octs, hlen, hoct with
  | [o0, o1, o2, o3, o4, o5], _, hoct =>
    obtain ⟨x0, y0, e0, g0, v0⟩ := padOctet_value o0 (hoct o0 (by simp)).1 (hoct o0 (by simp)).2
    obtain ⟨x1, y1, e1, g1, v1⟩ := padOctet_value o1 (hoct o1 (by simp)).1 (hoct o1 (by simp)).2
    obtain ⟨x2, y2, e2, g2, v2⟩ := padOctet_value o2 (hoct o2 (by simp)).1 (hoct o2 (by simp)).2
    obtain ⟨x3, y3, e3, g3, v3⟩ := padOctet_value o3 (hoct o3 (by simp)).1 (hoct o3 (by simp)).2
    obtain ⟨x4, y4, e4, g4, v4⟩ := padOctet_value o4 (hoct o4 (by simp)).1 (hoct o4 (by simp)).2
    obtain ⟨x5, y5, e5, g5, v5⟩ := padOctet_value o5 (hoct o5 (by simp)).1 (hoct o5 (by simp)).2
    have e : [':'].intercalate (List.map padOctet [o0, o1, o2, o3, o4, o5]) =
        x0 :: y0 :: ':' :: x1 :: y1 :: ':' :: x2 :: y2 :: ':' :: x3 :: y3 :: ':' ::
          x4 :: y4 :: ':' :: x5 :: y5 :: [] := by
      simp [List.intercalate, List.intersperse, e0, e1, e2, e3, e4, e5]
    rw [e, in_ether_groups x0 y0 x1 y1 x2 y2 x3 y3 x4 y4 x5 y5 [] g0 g1 g2 g3 g4 g5,
      v0, v1, v2, v3, v4, v5]
    rfl

/-- C17 at the raw address `a:1b:2:3c:4:5`: the bytes are
`[0x0A, 0x1B, 0x02, 0x3C, 0x04, 0x05]`. -/
theorem in_ether_formatMAC_witness :
    ∃ out, formatMAC ([':'].intercalate ["a".toList, "1b".toList, "2".toList, "3c".toList,
        "4".toList, "5".toList]) [] = some (0, out) ∧
      in_ether out = some (0, [0x0A, 0x1B, 0x02, 0x3C, 0x04, 0x05]) :=
  in_ether_formatMAC ["a".toList, "1b".toList, "2".toList, "3c".toList, "4".toList,
    "5".toList] (by decide) (by decide)

/-- C18: `in_ether` does not tell the letter cases apart: a string, the string
with its letters a-f in upper case and the string with its letters A-F in
lower case give the same return value and, on success, the same bytes. -/
theorem in_ether_case_insensitive (s : CStr) :
    (in_ether (s.map upperHex)).map Prod.fst = (in_ether s).map Prod.fst ∧
    (in_ether (s.map lowerHex)).map Prod.fst = (in_ether s).map Prod.fst ∧
    ∀ hw, in_ether s = some (0, hw) →
      in_ether (s.map upperHex) = some (0, hw) ∧ in_ether (s.map lowerHex) = some (0, hw) := by
  have hu := in_ether_map upperHex (by decide) upperHex_class s
  have hl := in_ether_map lowerHex (by decide) lowerHex_class s
  exact ⟨hu.1, hl.1, fun hw h => ⟨hu.2 hw h, hl.2 hw h⟩⟩

/-- C19: in every run of `send_wol` in which the socket is created, the
socket is closed exactly once, the close is the last call of the run, and no
other descriptor is closed; this covers the success path and the failures of
`setsockopt` and of `sendto`. -/
theorem send_wol_closes_once (env : SockEnv) (macAddr : CStr) (r : Int)
    (tr : List SockCall) (hrun : send_wol env macAddr = some (r, tr))
    (hcall : SockCall.socket ∈ tr) (hsock : 0 ≤ env.socket) :
    tr.count (SockCall.close env.socket) = 1 ∧
      tr.getLast? = some (SockCall.close env.socket) ∧
      ∀ fd, SockCall.close fd ∈ tr → fd = env.socket := by
  have hs : ¬ env.socket < 0 := by omega
  unfold send_wol at hrun
  cases hdec : in_ether macAddr with
  | none => simp [hdec] at hrun
  | some res =>
    obtain ⟨rc, ethaddr⟩ := res
    simp only [hdec, hs, if_false] at hrun
    by_cases hrc : rc < 0
    · simp only [hrc, if_true, Option.some.injEq, Prod.mk.injEq] at hrun
      rw [← hrun.2] at hcall
      simp at hcall
    · simp only [hrc, if_false] at hrun
      by_cases ho : env.setsockopt < 0
      · simp only [ho, if_true, Option.some.injEq, Prod.mk.injEq] at hrun
        rw [← hrun.2]
        simp [List.count_cons]
      · simp only [ho, if_false] at hrun
        by_cases hsend : env.sendto < 0
        · simp only [hsend, if_true, Option.some.injEq, Prod.mk.injEq] at hrun
          rw [← hrun.2]
          simp [List.count_cons]
        · simp only [hsend, if_false, Option.some.injEq, Prod.mk.injEq] at hrun
          rw [← hrun.2]
          simp [List.count_cons]

/-- C19 on a run in which `sendto` fails. -/
theorem send_wol_closes_once_witness :
    [SockCall.socket, SockCall.setsockopt 3,
        SockCall.sendto 3 (send_wol_packetBuf [0x00, 0x1B, 0x63, 0x84, 0x45, 0xE6])
          0xffffffff 60000, SockCall.close 3].count (SockCall.close 3) = 1 ∧
      [SockCall.socket, SockCall.setsockopt 3,
        SockCall.sendto 3 (send_wol_packetBuf [0x00, 0x1B, 0x63, 0x84, 0x45, 0xE6])
          0xffffffff 60000, SockCall.close 3].getLast? = some (SockCall.close 3) ∧
      ∀ fd, SockCall.close fd ∈ [SockCall.socket, SockCall.setsockopt 3,
        SockCall.sendto 3 (send_wol_packetBuf [0x00, 0x1B, 0x63, 0x84, 0x45, 0xE6])
          0xffffffff 60000, SockCall.close 3] → fd = 3 :=
  send_wol_closes_once ⟨3, 0, -1⟩ "00:1B:63:84:45:E6".toList (-1) _ (by decide!) (by simp)
    (by decide)

/-- C20: the strings on which `in_ether` returns 0 are exactly those that
begin with five groups `XX:` or `X::` and a sixth group `XX` or `X:` (17
characters), whatever follows; the bytes are the values of the six groups, a
one-digit group giving the value of its digit; every string shorter than 17
characters is rejected. -/
theorem in_ether_language (s : CStr) :
    ((∃ hw, in_ether s = some (0, hw)) ↔
      ∃ a0 b0 a1 b1 a2 b2 a3 b3 a4 b4 a5 b5 rest,
        s = a0 :: b0 :: ':' :: a1 :: b1 :: ':' :: a2 :: b2 :: ':' :: a3 :: b3 :: ':' ::
          a4 :: b4 :: ':' :: a5 :: b5 :: rest ∧
        isGroup a0 b0 = true ∧ isGroup a1 b1 = true ∧ isGroup a2 b2 = true ∧
        isGroup a3 b3 = true ∧ isGroup a4 b4 = true ∧ isGroup a5 b5 = true) ∧
    (∀ a0 b0 a1 b1 a2 b2 a3 b3 a4 b4 a5 b5 rest,
      s = a0 :: b0 :: ':' :: a1 :: b1 :: ':' :: a2 :: b2 :: ':' :: a3 :: b3 :: ':' ::
          a4 :: b4 :: ':' :: a5 :: b5 :: rest →
      isGroup a0 b0 = true → isGroup a1 b1 = true → isGroup a2 b2 = true →
      isGroup a3 b3 = true → isGroup a4 b4 = true → isGroup a5 b5 = true →
      in_ether s = some (0, [groupVal a0 b0, groupVal a1 b1, groupVal a2 b2,
        groupVal a3 b3, groupVal a4 b4, groupVal a5 b5])) ∧
    (s.length < 17 → ∃ hw, in_ether s = some (-1, hw)) := by
  have hspec := in_ether_spec s
  have hiff := octetsOk_iff s
  have hlen : octetsOk s 6 0 = true → 17 ≤ s.length := by
    intro hok
    by_contra hlt
    have h16 := charAt_of_le_length s 16 (by omega)
    have h5 := (hiff.1 hok 5 (by omega)).2.1
    simp only [Nat.reduceMul, Nat.reduceAdd, h16] at h5
    revert h5
    decide
  have hsucc : (∃ hw, in_ether s = some (0, hw)) → octetsOk s 6 0 = true := by
    rintro ⟨hw, h0⟩
    by_contra hno
    obtain ⟨hw', h1⟩ := hspec.2 (by simpa using hno)
    rw [h0] at h1
    simp at h1
  refine ⟨⟨?_, ?_⟩, ?_, ?_⟩
  · intro h
    have hok := hsucc h
    obtain ⟨c0, c1, c2, c3, c4, c5, c6, c7, c8, c9, c10, c11, c12, c13, c14, c15, c16, rest,
      rfl⟩ := exists_seventeen s (hlen hok)
    have k0 := hiff.1 hok 0 (by omega)
    have k1 := hiff.1 hok 1 (by omega)
    have k2 := hiff.1 hok 2 (by omega)
    have k3 := hiff.1 hok 3 (by omega)
    have k4 := hiff.1 hok 4 (by omega)
    have k5 := hiff.1 hok 5 (by omega)
    simp only [charAt, List.getD_cons_zero, List.getD_cons_succ, Nat.reduceMul, Nat.reduceAdd,
      Nat.reduceLT, Nat.lt_irrefl, forall_true_left, false_implies, and_true]
      at k0 k1 k2 k3 k4 k5
    obtain ⟨p0, q0, r0⟩ := k0
    obtain ⟨p1, q1, r1⟩ := k1
    obtain ⟨p2, q2, r2⟩ := k2
    obtain ⟨p3, q3, r3⟩ := k3
    obtain ⟨p4, q4, r4⟩ := k4
    obtain ⟨p5, q5⟩ := k5
    subst r0 r1 r2 r3 r4
    refine ⟨c0, c1, c3, c4, c6, c7, c9, c10, c12, c13, c15, c16, rest, rfl, ?_, ?_, ?_, ?_, ?_,
      ?_⟩ <;> simp only [isGroup, Bool.and_eq_true, Bool.or_eq_true, beq_iff_eq] <;>
      constructor <;> assumption
  · rintro ⟨a0, b0, a1, b1, a2, b2, a3, b3, a4, b4, a5, b5, rest, rfl, g0, g1, g2, g3, g4, g5⟩
    exact ⟨_, in_ether_groups a0 b0 a1 b1 a2 b2 a3 b3 a4 b4 a5 b5 rest g0 g1 g2 g3 g4 g5⟩
  · intro a0 b0 a1 b1 a2 b2 a3 b3 a4 b4 a5 b5 rest hs g0 g1 g2 g3 g4 g5
    rw [hs]
    exact in_ether_groups a0 b0 a1 b1 a2 b2 a3 b3 a4 b4 a5 b5 rest g0 g1 g2 g3 g4 g5
  · intro hlt
    apply hspec.2
    by_contra hok
    have := hlen (by simpa using hok)
    omega

/-- C21: `formatMAC` is idempotent: with an empty output buffer at each call,
formatting the result of formatting a string gives that result again; and
every canonical string `XX:XX:XX:XX:XX:XX` is formatted to itself. -/
theorem formatMAC_idempotent (x : CStr) :
    (∃ y, formatMAC x [] = some (0, y) ∧ formatMAC y [] = some (0, y)) ∧
    (∀ s, isCanonicalMAC s = true → formatMAC s [] = some (0, s)) := by
  constructor
  · refine ⟨normalizeSpec x, by simpa using formatMAC_eq x [], ?_⟩
    have := formatMAC_eq (normalizeSpec x) []
    rw [normalizeSpec_idem] at this
    simpa using this
  · intro s hs
    have := formatMAC_eq s []
    rw [normalizeSpec_canonical s hs] at this
    simpa using this

/-- C22: `formatMAC` appends: for every input `raw` and every content `p` of
the output buffer on entry, the call returns 0 and the final buffer is `p`
followed by the normalized form of `raw` (split on `:`, empty octets dropped,
one-character octets padded with `0`, joined with `:`), which is what the
call leaves in an empty buffer; the characters of `p` are unchanged, and the
final buffer is the normalized form itself only when `p` is empty. -/
theorem formatMAC_appends (raw p : CStr) :
    formatMAC raw p = some (0, p ++ normalizeSpec raw) ∧
    formatMAC raw [] = some (0, normalizeSpec raw) ∧
    (p ++ normalizeSpec raw).take p.length = p ∧
    (p ++ normalizeSpec raw = normalizeSpec raw ↔ p = []) := by
  refine ⟨formatMAC_eq raw p, by simpa using formatMAC_eq raw [], ?_, ?_⟩
  · simp
  · exact List.append_left_eq_self

/-- C22 in the situation of `macForIP`: the buffer holds `no MAC found` when
the raw address `a:1b:2:3c:4:5` is formatted. -/
theorem formatMAC_appends_witness :
    formatMAC "a:1b:2:3c:4:5".toList "no MAC found".toList =
      some (0, "no MAC found0a:1b:02:3c:04:05".toList) :=
  (formatMAC_appends "a:1b:2:3c:4:5".toList "no MAC found".toList).1.trans (by decide!)

end WolLib
